import Mathlib

/-!
Verification development for the HOS trip planner and ELD log generator
(src/trips/hos_engine.py and src/trips/eld_generator.py).

Modelling conventions:
* Time instants are rationals, measured in hours since a fixed epoch that
  falls at midnight (so the calendar day of an instant t is the integer
  floor of t / 24, and day d spans the half-open window from 24 d to
  24 d + 24).  Python datetime arithmetic with timedelta(hours=h) is exact
  value passing, which the rational model reproduces.
* Python floats are modelled by rationals; the numeric slack in the claims
  (1e-6, 0.5 mi, 0.01 h) exists to absorb float error, and the rational
  model realises the ideal arithmetic of the source.
* The while loop of the driving planner is embedded as one function for the
  loop body (planStep, a faithful transcription of a single iteration) plus
  explicitly fueled iteration (planDrivingAux); the result records whether
  the loop condition became false (completed) or the fuel ran out.
* Each emitted segment is paired with the ledger (HOSState) snapshot taken
  immediately after the ledger update that accompanies the emission, so that
  post-segment ledger invariants can be stated.
* The Python expression segments[-1] on a possibly-empty list raises
  IndexError; the embedding of calculate_trip returns an Option, with none
  exactly on that error path.
-/

set_option allowUnsafeReducibility true in
attribute [semireducible] Rat.add Rat.sub Rat.mul Rat.div Rat.neg Rat.inv
  Rat.instDecidableLe Rat.instDecidableLt

/-- Python round-half-to-even of a rational to an integer: the floor when
the fractional part is below one half, the ceiling when above, and the even
neighbour on an exact tie. -/
def roundHalfEven (x : ℚ) : ℤ :=
  if x - (⌊x⌋ : ℚ) < 1/2 then ⌊x⌋
  else if x - (⌊x⌋ : ℚ) > 1/2 then ⌊x⌋ + 1
  else if ⌊x⌋ % 2 = 0 then ⌊x⌋ else ⌊x⌋ + 1

/-- Python round(x, ndigits) on rationals (round-half-to-even). -/
def pyRound (ndigits : ℕ) (x : ℚ) : ℚ :=
  ((roundHalfEven (x * (10 ^ ndigits : ℕ))) : ℚ) / ((10 ^ ndigits : ℕ) : ℚ)

/-- Coordinate record (Location in hos_engine.py, dict in the planner). -/
structure Loc where
  lat : ℚ
  lng : ℚ
  name : String
deriving DecidableEq

/-- interpolate_location from hos_engine.py: linear interpolation between two
locations, coordinates rounded to 6 decimals, empty name. -/
def interpolate_location (start_loc end_loc : Loc) (fraction : ℚ) : Loc :=
  { lat := pyRound 6 (start_loc.lat + (end_loc.lat - start_loc.lat) * fraction)
    lng := pyRound 6 (start_loc.lng + (end_loc.lng - start_loc.lng) * fraction)
    name := "" }

/-- TripSegment from hos_engine.py.  Times are rational hours since the
epoch; duty_status holds the string value of the DutyStatus enum. -/
structure TripSegment where
  segment_type : String
  duty_status : String
  start_time : ℚ
  end_time : ℚ
  start_location : Loc
  end_location : Loc
  distance_miles : ℚ
  reason : String
deriving DecidableEq

/-- duration_hours of a TripSegment: (end - start) in hours. -/
def TripSegment.duration_hours (s : TripSegment) : ℚ :=
  s.end_time - s.start_time

/-- HOSState from hos_engine.py: the duty-state ledger. -/
structure HOSState where
  driving_hours : ℚ
  window_hours : ℚ
  hours_since_break : ℚ
  cycle_hours : ℚ
  on_duty : Bool
deriving DecidableEq

/-- Initial ledger: HOSState(cycle_hours=c), other counters zero. -/
def HOSState.init (c : ℚ) : HOSState :=
  { driving_hours := 0, window_hours := 0, hours_since_break := 0
    cycle_hours := c, on_duty := false }

/-- remaining_driving: hours of driving left before any limit is hit,
max(0, min(11 - driving, 14 - window, 8 - since_break, 70 - cycle)). -/
def HOSState.remaining_driving (s : HOSState) : ℚ :=
  max 0 (min (11 - s.driving_hours)
        (min (14 - s.window_hours)
          (min (8 - s.hours_since_break) (70 - s.cycle_hours))))

/-- remaining_before_break: max(0, 8 - hours_since_break). -/
def HOSState.remaining_before_break (s : HOSState) : ℚ :=
  max 0 (8 - s.hours_since_break)

/-- needs_break: hours_since_break has reached 8. -/
def HOSState.needs_break (s : HOSState) : Prop :=
  s.hours_since_break ≥ 8

instance (s : HOSState) : Decidable s.needs_break := by
  unfold HOSState.needs_break; infer_instance

/-- needs_rest: driving_hours has reached 11 or window_hours has reached 14. -/
def HOSState.needs_rest (s : HOSState) : Prop :=
  s.driving_hours ≥ 11 ∨ s.window_hours ≥ 14

instance (s : HOSState) : Decidable s.needs_rest := by
  unfold HOSState.needs_rest; infer_instance

/-- needs_cycle_reset: cycle_hours has reached 70. -/
def HOSState.needs_cycle_reset (s : HOSState) : Prop :=
  s.cycle_hours ≥ 70

instance (s : HOSState) : Decidable s.needs_cycle_reset := by
  unfold HOSState.needs_cycle_reset; infer_instance

/-- add_driving(h): adds h to all four counters and sets on_duty. -/
def HOSState.add_driving (s : HOSState) (h : ℚ) : HOSState :=
  { driving_hours := s.driving_hours + h
    window_hours := s.window_hours + h
    hours_since_break := s.hours_since_break + h
    cycle_hours := s.cycle_hours + h
    on_duty := true }

/-- add_on_duty(h): adds h to window_hours and cycle_hours, sets on_duty. -/
def HOSState.add_on_duty (s : HOSState) (h : ℚ) : HOSState :=
  { s with window_hours := s.window_hours + h
           cycle_hours := s.cycle_hours + h
           on_duty := true }

/-- take_break(): zeroes hours_since_break only. -/
def HOSState.take_break (s : HOSState) : HOSState :=
  { s with hours_since_break := 0 }

/-- take_rest(): zeroes driving_hours, window_hours, hours_since_break and
clears on_duty; cycle_hours is untouched. -/
def HOSState.take_rest (s : HOSState) : HOSState :=
  { s with driving_hours := 0, window_hours := 0, hours_since_break := 0
           on_duty := false }

/-- Result of one iteration of the while loop of _plan_driving_segment:
the emitted segments (each paired with the ledger snapshot right after its
accompanying ledger update), the new ledger, clock, miles_remaining and
miles_since_fuel. -/
structure StepRes where
  segs : List (TripSegment × HOSState)
  state : HOSState
  time : ℚ
  mr : ℚ
  msf : ℚ
deriving DecidableEq

/-- One iteration of the while loop of _plan_driving_segment
(hos_engine.py lines 279-445), as executed when miles_remaining > 0.1. -/
def planStep (start_loc end_loc : Loc) (total_miles : ℚ)
    (st : HOSState) (t mr msf : ℚ) : StepRes :=
  let drive_limit := st.remaining_driving
  if drive_limit ≤ 0 then
    let fraction_done := if total_miles > 0 then 1 - mr / total_miles else 0
    let loc := interpolate_location start_loc end_loc fraction_done
    if st.needs_cycle_reset then
      let seg : TripSegment :=
        { segment_type := "rest", duty_status := "off_duty"
          start_time := t, end_time := t + 34
          start_location := loc, end_location := loc
          distance_miles := 0
          reason := "Required 34-hour restart (70hr cycle limit)" }
      let st' := { st.take_rest with cycle_hours := 0 }
      ⟨[(seg, st')], st', seg.end_time, mr, msf⟩
    else if st.needs_break ∧ ¬ st.needs_rest then
      let seg : TripSegment :=
        { segment_type := "break", duty_status := "off_duty"
          start_time := t, end_time := t + 1/2
          start_location := loc, end_location := loc
          distance_miles := 0
          reason := "Required 30-minute break (8hr driving limit)" }
      let st' := st.take_break
      ⟨[(seg, st')], st', seg.end_time, mr, msf⟩
    else
      let seg : TripSegment :=
        { segment_type := "rest", duty_status := "off_duty"
          start_time := t, end_time := t + 10
          start_location := loc, end_location := loc
          distance_miles := 0
          reason := "Required 10-hour rest (driving/window limit)" }
      let st' := st.take_rest
      ⟨[(seg, st')], st', seg.end_time, mr, msf⟩
  else
    let miles_can_drive := drive_limit * 55
    let miles_this_segment := min mr miles_can_drive
    let miles_to_fuel0 := 1000 - msf
    let miles_to_fuel := if miles_to_fuel0 ≤ 0 then 1000 else miles_to_fuel0
    let need_fuel : Bool :=
      decide (miles_this_segment ≥ miles_to_fuel ∧ mr > miles_to_fuel)
    let miles_this_segment :=
      if need_fuel then miles_to_fuel else miles_this_segment
    let hours_this_segment := miles_this_segment / 55
    let hours_to_break := st.remaining_before_break
    if hours_this_segment > hours_to_break ∧ hours_to_break > 0 then
      let miles_before_break := hours_to_break * 55
      let driven : List (TripSegment × HOSState) × HOSState × ℚ × ℚ × ℚ :=
        if miles_before_break > 1/10 then
          let fraction_start := if total_miles > 0 then 1 - mr / total_miles else 0
          let fraction_end :=
            if total_miles > 0 then 1 - (mr - miles_before_break) / total_miles else 1
          let seg_start := interpolate_location start_loc end_loc fraction_start
          let seg_end := interpolate_location start_loc end_loc fraction_end
          let drive_seg : TripSegment :=
            { segment_type := "drive", duty_status := "driving"
              start_time := t, end_time := t + hours_to_break
              start_location := seg_start, end_location := seg_end
              distance_miles := miles_before_break
              reason := "Driving" }
          let st1 := st.add_driving hours_to_break
          ⟨[(drive_seg, st1)], st1, drive_seg.end_time,
            mr - miles_before_break, msf + miles_before_break⟩
        else ⟨[], st, t, mr, msf⟩
      let st1 := driven.2.1
      let t1 := driven.2.2.1
      let mr1 := driven.2.2.2.1
      let msf1 := driven.2.2.2.2
      let fraction_done := if total_miles > 0 then 1 - mr1 / total_miles else 1
      let loc := interpolate_location start_loc end_loc fraction_done
      if need_fuel ∧ |msf1 - 1000| < 100 then
        let break_seg : TripSegment :=
          { segment_type := "fuel", duty_status := "off_duty"
            start_time := t1, end_time := t1 + 1/2
            start_location := loc, end_location := loc
            distance_miles := 0
            reason := "Fuel stop + 30-minute break" }
        let st2 := st1.take_break
        ⟨driven.1 ++ [(break_seg, st2)], st2, break_seg.end_time, mr1, 0⟩
      else
        let break_seg : TripSegment :=
          { segment_type := "break", duty_status := "off_duty"
            start_time := t1, end_time := t1 + 1/2
            start_location := loc, end_location := loc
            distance_miles := 0
            reason := "Required 30-minute break (8hr driving limit)" }
        let st2 := st1.take_break
        ⟨driven.1 ++ [(break_seg, st2)], st2, break_seg.end_time, mr1, msf1⟩
    else
      let fraction_start := if total_miles > 0 then 1 - mr / total_miles else 0
      let fraction_end :=
        if total_miles > 0 then 1 - (mr - miles_this_segment) / total_miles else 1
      let seg_start := interpolate_location start_loc end_loc fraction_start
      let seg_end := interpolate_location start_loc end_loc fraction_end
      let drive_seg : TripSegment :=
        { segment_type := "drive", duty_status := "driving"
          start_time := t, end_time := t + hours_this_segment
          start_location := seg_start, end_location := seg_end
          distance_miles := miles_this_segment
          reason := "Driving" }
      let st1 := st.add_driving hours_this_segment
      let mr1 := mr - miles_this_segment
      let msf1 := msf + miles_this_segment
      if need_fuel ∧ mr1 > 1/10 then
        let fuel_seg : TripSegment :=
          { segment_type := "fuel", duty_status := "on_duty_not_driving"
            start_time := drive_seg.end_time, end_time := drive_seg.end_time + 1/2
            start_location := seg_end, end_location := seg_end
            distance_miles := 0
            reason := "Fuel stop" }
        let st2 := st1.add_on_duty (1/2)
        ⟨[(drive_seg, st1), (fuel_seg, st2)], st2, fuel_seg.end_time, mr1, 0⟩
      else
        ⟨[(drive_seg, st1)], st1, drive_seg.end_time, mr1, msf1⟩

/-- Result of running the while loop of _plan_driving_segment: emitted
segments with ledger snapshots, final ledger, clock, miles_remaining,
miles_since_fuel, and whether the loop condition became false (as opposed
to the iteration fuel running out). -/
structure PlanRes where
  segs : List (TripSegment × HOSState)
  state : HOSState
  time : ℚ
  mr : ℚ
  msf : ℚ
  completed : Bool
deriving DecidableEq

/-- The while loop of _plan_driving_segment, iterated with explicit fuel. -/
def planDrivingAux (start_loc end_loc : Loc) (total_miles : ℚ) :
    ℕ → HOSState → ℚ → ℚ → ℚ → PlanRes
  | 0, st, t, mr, msf => ⟨[], st, t, mr, msf, decide (¬ mr > 1/10)⟩
  | fuel + 1, st, t, mr, msf =>
    if mr > 1/10 then
      let s := planStep start_loc end_loc total_miles st t mr msf
      let r := planDrivingAux start_loc end_loc total_miles fuel s.state s.time s.mr s.msf
      ⟨s.segs ++ r.segs, r.state, r.time, r.mr, r.msf, r.completed⟩
    else ⟨[], st, t, mr, msf, true⟩

/-- _plan_driving_segment from hos_engine.py: plan a driving leg, starting
with miles_remaining = total_miles and miles_since_fuel = 0.  The fuel
argument bounds the number of loop iterations (the source loop is unbounded;
completed reports whether it ran to its exit condition). -/
def plan_driving_segment (fuel : ℕ) (st : HOSState) (start_time : ℚ)
    (start_loc end_loc : Loc) (total_miles : ℚ) : PlanRes :=
  planDrivingAux start_loc end_loc total_miles fuel st start_time total_miles 0

/-- _check_and_add_rest_if_needed from hos_engine.py: possibly emit one rest
segment (34-hour restart or 10-hour rest) before on-duty work.  Returns the
appended segments (paired with post-update ledger snapshots) and the ledger. -/
def check_and_add_rest_if_needed (st : HOSState) (current_time : ℚ)
    (location : Loc) : List (TripSegment × HOSState) × HOSState :=
  if st.needs_cycle_reset then
    let seg : TripSegment :=
      { segment_type := "rest", duty_status := "off_duty"
        start_time := current_time, end_time := current_time + 34
        start_location := location, end_location := location
        distance_miles := 0
        reason := "Required 34-hour restart (70hr cycle limit)" }
    let st' := { st.take_rest with cycle_hours := 0 }
    ⟨[(seg, st')], st'⟩
  else if st.needs_rest then
    let seg : TripSegment :=
      { segment_type := "rest", duty_status := "off_duty"
        start_time := current_time, end_time := current_time + 10
        start_location := location, end_location := location
        distance_miles := 0
        reason := "Required 10-hour rest" }
    let st' := st.take_rest
    ⟨[(seg, st')], st'⟩
  else ⟨[], st⟩

/-- RouteLeg input record of calculate_trip.  duration_hours is carried but
the planner recomputes drive time from distance at 55 mph. -/
structure RouteLeg where
  leg_type : String
  start_location : Loc
  end_location : Loc
  distance_miles : ℚ
  duration_hours : ℚ
deriving DecidableEq

/-- Loop body of calculate_trip over route_legs (hos_engine.py lines
180-236).  acc is the segment list built so far, st the ledger, t the clock.
Returns none exactly where the source evaluates segments[-1] on an empty
list (IndexError). -/
def calcTripGo (fuel : ℕ) :
    List RouteLeg → HOSState → ℚ → List (TripSegment × HOSState) →
    Option (List (TripSegment × HOSState))
  | [], _, _, acc => some acc
  | leg :: rest, st, t, acc =>
    if leg.leg_type = "drive_to_pickup" ∨ leg.leg_type = "drive_to_dropoff" then
      let r := planDrivingAux leg.start_location leg.end_location
        leg.distance_miles fuel st t leg.distance_miles 0
      let acc1 := acc ++ r.segs
      match acc1.getLast? with
      | none => none
      | some last =>
        let t1 := last.1.end_time
        let rc := check_and_add_rest_if_needed r.state t1 leg.end_location
        let acc2 := acc1 ++ rc.1
        let t2 := (acc2.getLast?).elim t1 (fun p => p.1.end_time)
        let work_seg : TripSegment :=
          if leg.leg_type = "drive_to_pickup" then
            { segment_type := "pickup", duty_status := "on_duty_not_driving"
              start_time := t2, end_time := t2 + 1
              start_location := leg.end_location, end_location := leg.end_location
              distance_miles := 0
              reason := "Pickup - Loading" }
          else
            { segment_type := "dropoff", duty_status := "on_duty_not_driving"
              start_time := t2, end_time := t2 + 1
              start_location := leg.end_location, end_location := leg.end_location
              distance_miles := 0
              reason := "Dropoff - Unloading" }
        let st2 := rc.2.add_on_duty 1
        calcTripGo fuel rest st2 work_seg.end_time (acc2 ++ [(work_seg, st2)])
    else calcTripGo fuel rest st t acc

/-- calculate_trip from hos_engine.py: plan the whole trip over the route
legs, threading the ledger seeded with current_cycle_used.  none models the
IndexError the source raises at segments[-1] when the list is empty. -/
def calculate_trip (fuel : ℕ) (route_legs : List RouteLeg)
    (current_cycle_used : ℚ) (start_time : ℚ) :
    Option (List (TripSegment × HOSState)) :=
  calcTripGo fuel route_legs (HOSState.init current_cycle_used) start_time []

/-- Segment/snapshot pairs of a trip, with the error case collapsed to []. -/
def tripPairs (fuel : ℕ) (route_legs : List RouteLeg)
    (current_cycle_used : ℚ) (start_time : ℚ) : List (TripSegment × HOSState) :=
  (calculate_trip fuel route_legs current_cycle_used start_time).getD []

/-- Calendar day of an instant (hours since the midnight epoch). -/
def dateOf (t : ℚ) : ℤ := ⌊t / 24⌋

/-- _map_duty_status from eld_generator.py: alias on_duty to
on_duty_not_driving, default unknown statuses to off_duty. -/
def map_duty_status (status : String) : String :=
  if status = "off_duty" then "off_duty"
  else if status = "sleeper_berth" then "sleeper_berth"
  else if status = "driving" then "driving"
  else if status = "on_duty_not_driving" then "on_duty_not_driving"
  else if status = "on_duty" then "on_duty_not_driving"
  else "off_duty"

/-- A status entry of a daily log (0-24 hour scale). -/
structure LogEntry where
  status : String
  start_hour : ℚ
  end_hour : ℚ
  segment_type : String
deriving DecidableEq

/-- Start of the slice of a segment on day d: max(seg.start_time, day_start). -/
def sliceStart (d : ℤ) (s : TripSegment) : ℚ := max s.start_time (24 * d)

/-- End of the slice of a segment on day d: min(seg.end_time, day_end). -/
def sliceEnd (d : ℤ) (s : TripSegment) : ℚ := min s.end_time (24 * d + 24)

/-- The provisional entries of day d, in segment order: one entry per segment
whose slice on the day is nonempty, hours rounded to 4 decimals
(eld_generator.py lines 57-75). -/
def daySlices (d : ℤ) : List TripSegment → List LogEntry
  | [] => []
  | s :: rest =>
    let a := sliceStart d s
    let b := sliceEnd d s
    if a ≥ b then daySlices d rest
    else
      { status := map_duty_status s.duty_status
        start_hour := pyRound 4 (a - 24 * d)
        end_hour := pyRound 4 (b - 24 * d)
        segment_type := s.segment_type } :: daySlices d rest

/-- Miles apportioned to day d (eld_generator.py lines 80-85): each driving
segment with positive distance and positive duration contributes its distance
scaled by the fraction of its duration that lies on the day. -/
def dayMiles (d : ℤ) : List TripSegment → ℚ
  | [] => 0
  | s :: rest =>
    let a := sliceStart d s
    let b := sliceEnd d s
    (if a ≥ b then 0
     else if s.duty_status = "driving" ∧ s.distance_miles > 0 then
       if s.duration_hours > 0 then s.distance_miles * ((b - a) / s.duration_hours)
       else 0
     else 0) + dayMiles d rest

/-- Two-digit zero-padded decimal rendering of n < 100. -/
def padTwo (n : ℕ) : String :=
  String.mk [Char.ofNat (48 + n / 10), Char.ofNat (48 + n % 10)]

/-- strftime HH:MM of an instant (hours since the midnight epoch). -/
def fmtTime (t : ℚ) : String :=
  padTwo ((⌊t⌋ % 24).toNat) ++ ":" ++ padTwo ((⌊t * 60⌋ % 60).toNat)

/-- Remarks of day d (eld_generator.py lines 87-90): for each segment whose
slice on the day is nonempty, whose reason is nonempty and whose slice start
is at or after the segment start (which always holds, as the slice start is a
max with the segment start), the remark HH:MM - reason at the slice start. -/
def dayRemarks (d : ℤ) : List TripSegment → List String
  | [] => []
  | s :: rest =>
    let a := sliceStart d s
    let b := sliceEnd d s
    (if a ≥ b then []
     else if s.reason ≠ "" ∧ a ≥ s.start_time then [fmtTime a ++ " - " ++ s.reason]
     else []) ++ dayRemarks d rest

/-- Insert an entry into a list ordered by start_hour, keeping it before any
later entry with the same start_hour (stable, as Python sort is). -/
def insertByStart (e : LogEntry) : List LogEntry → List LogEntry
  | [] => [e]
  | f :: rest =>
    if e.start_hour ≤ f.start_hour then e :: f :: rest
    else f :: insertByStart e rest

/-- Stable sort of entries by start_hour (entries.sort in _fill_gaps). -/
def sortByStart : List LogEntry → List LogEntry
  | [] => []
  | e :: rest => insertByStart e (sortByStart rest)

/-- The gap-filling pass of _fill_gaps over sorted entries, carrying
current_hour (eld_generator.py lines 141-160). -/
def fillLoop : ℚ → List LogEntry → List LogEntry
  | cur, [] =>
    if cur < 2399/100 then
      [{ status := "off_duty", start_hour := pyRound 4 cur, end_hour := 24
         segment_type := "off_duty" }]
    else []
  | cur, e :: rest =>
    if e.start_hour > cur + 1/100 then
      { status := "off_duty", start_hour := pyRound 4 cur
        end_hour := pyRound 4 e.start_hour, segment_type := "off_duty" } ::
        e :: fillLoop e.end_hour rest
    else e :: fillLoop e.end_hour rest

/-- _fill_gaps from eld_generator.py: a full off-duty day when there are no
entries, otherwise sort by start_hour and fill gaps larger than 0.01 h,
closing the day at 24 when the last entry ends before 23.99. -/
def fill_gaps (entries : List LogEntry) : List LogEntry :=
  match entries with
  | [] => [{ status := "off_duty", start_hour := 0, end_hour := 24
             segment_type := "off_duty" }]
  | _ => fillLoop 0 (sortByStart entries)

/-- Sum of entry durations carrying a given status (the recomputation of
hours_by_status after gap filling). -/
def statusSum (st : String) (es : List LogEntry) : ℚ :=
  (es.map (fun e => if e.status = st then e.end_hour - e.start_hour else 0)).sum

/-- One daily log record of generate_eld_logs. -/
structure DailyLog where
  date : ℤ
  day_number : ℕ
  entries : List LogEntry
  off_duty_total : ℚ
  sleeper_berth_total : ℚ
  driving_total : ℚ
  on_duty_total : ℚ
  total_miles : ℚ
  remarks : List String
deriving DecidableEq

/-- The daily log of calendar day d with 1-based day number n. -/
def dayLog (segments : List TripSegment) (d : ℤ) (n : ℕ) : DailyLog :=
  let entries := fill_gaps (daySlices d segments)
  { date := d
    day_number := n
    entries := entries
    off_duty_total := pyRound 2 (statusSum "off_duty" entries)
    sleeper_berth_total := pyRound 2 (statusSum "sleeper_berth" entries)
    driving_total := pyRound 2 (statusSum "driving" entries)
    on_duty_total := pyRound 2 (statusSum "on_duty_not_driving" entries)
    total_miles := pyRound 1 (dayMiles d segments)
    remarks := dayRemarks d segments }

/-- generate_eld_logs from eld_generator.py: one daily log per calendar day
from trip_start_date (or the date of the first segment start when absent)
through the date of the last segment end; empty segment list gives an empty
output. -/
def generate_eld_logs (segments : List TripSegment)
    (trip_start_date : Option ℤ) : List DailyLog :=
  match segments with
  | [] => []
  | s0 :: rest =>
    let first_start := s0.start_time
    let last_end := ((s0 :: rest).getLast (List.cons_ne_nil s0 rest)).end_time
    let start_date := trip_start_date.getD (dateOf first_start)
    let end_date := dateOf last_end
    (List.range (end_date + 1 - start_date).toNat).map
      (fun (i : ℕ) => dayLog (s0 :: rest) (start_date + (i : ℤ)) (i + 1))

/-- roundHalfEven is bounded below by the floor. -/
theorem roundHalfEven_ge_floor (x : ℚ) : ⌊x⌋ ≤ roundHalfEven x := by
  unfold roundHalfEven
  split_ifs <;> omega

/-- roundHalfEven is bounded above by the floor plus one. -/
theorem roundHalfEven_le_floor_add_one (x : ℚ) : roundHalfEven x ≤ ⌊x⌋ + 1 := by
  unfold roundHalfEven
  split_ifs <;> omega

/-- roundHalfEven is monotone. -/
theorem roundHalfEven_mono {x y : ℚ} (h : x ≤ y) :
    roundHalfEven x ≤ roundHalfEven y := by
  rcases lt_or_eq_of_le (Int.floor_mono h) with hf | hf
  · calc roundHalfEven x ≤ ⌊x⌋ + 1 := roundHalfEven_le_floor_add_one x
      _ ≤ ⌊y⌋ := by omega
      _ ≤ roundHalfEven y := roundHalfEven_ge_floor y
  · unfold roundHalfEven
    rw [hf]
    have hr : x - (⌊y⌋ : ℚ) ≤ y - (⌊y⌋ : ℚ) := by linarith
    split_ifs <;> first | omega | linarith

/-- roundHalfEven of an integer is that integer. -/
theorem roundHalfEven_intCast (n : ℤ) : roundHalfEven (n : ℚ) = n := by
  unfold roundHalfEven
  rw [Int.floor_intCast]
  norm_num

/-- pyRound is monotone. -/
theorem pyRound_mono (nd : ℕ) {x y : ℚ} (h : x ≤ y) :
    pyRound nd x ≤ pyRound nd y := by
  unfold pyRound
  have hp : (0 : ℚ) < ((10 ^ nd : ℕ) : ℚ) := by positivity
  have h2 : ((roundHalfEven (x * ((10 ^ nd : ℕ) : ℚ))) : ℚ) ≤
      ((roundHalfEven (y * ((10 ^ nd : ℕ) : ℚ))) : ℚ) := by
    exact_mod_cast roundHalfEven_mono (mul_le_mul_of_nonneg_right h (le_of_lt hp))
  gcongr

/-- pyRound fixes any rational that is an integer multiple of 10^-ndigits. -/
theorem pyRound_eq_self {nd : ℕ} {x : ℚ} (k : ℤ)
    (hk : x * ((10 ^ nd : ℕ) : ℚ) = (k : ℚ)) : pyRound nd x = x := by
  unfold pyRound
  rw [hk, roundHalfEven_intCast, ← hk]
  have hp : ((10 ^ nd : ℕ) : ℚ) ≠ 0 := by positivity
  field_simp

/-- pyRound is idempotent. -/
theorem pyRound_idem (nd : ℕ) (x : ℚ) :
    pyRound nd (pyRound nd x) = pyRound nd x := by
  apply pyRound_eq_self (roundHalfEven (x * ((10 ^ nd : ℕ) : ℚ)))
  unfold pyRound
  have hp : ((10 ^ nd : ℕ) : ℚ) ≠ 0 := by positivity
  field_simp

/-- pyRound of zero is zero. -/
theorem pyRound_zero (nd : ℕ) : pyRound nd 0 = 0 :=
  pyRound_eq_self 0 (by norm_num)

/-- pyRound preserves nonnegativity. -/
theorem pyRound_nonneg (nd : ℕ) {x : ℚ} (h : 0 ≤ x) : 0 ≤ pyRound nd x := by
  have := pyRound_mono nd h
  rwa [pyRound_zero] at this

/-- pyRound (at 4 digits) of a value at most 24 stays at most 24. -/
theorem pyRound_le_24 {x : ℚ} (h : x ≤ 24) : pyRound 4 x ≤ 24 := by
  have h24 : pyRound 4 (24 : ℚ) = 24 := pyRound_eq_self 240000 (by norm_num)
  have := pyRound_mono 4 h
  rwa [h24] at this

/-- Demo coordinates for concrete evaluations. -/
def locA : Loc := ⟨0, 0, "A"⟩

/-- Demo coordinates for concrete evaluations. -/
def locB : Loc := ⟨1, 1, "B"⟩

/-- Demo coordinates for concrete evaluations. -/
def locC : Loc := ⟨2, 2, "C"⟩

/-- A trip whose first (and only) leg has zero distance. -/
def zeroFirstLeg : List RouteLeg := [⟨"drive_to_pickup", locA, locB, 0, 0⟩]

/-- A trip whose second leg has zero distance (first leg 55 miles). -/
def zeroSecondLeg : List RouteLeg :=
  [⟨"drive_to_pickup", locA, locB, 55, 1⟩, ⟨"drive_to_dropoff", locB, locB, 0, 0⟩]

/-- C9: take_break() sets hours_since_break to 0 and leaves driving_hours,
window_hours, cycle_hours and on_duty unchanged, for every HOSState. -/
theorem take_break_zeroes_break_counter_only (s : HOSState) :
    s.take_break.hours_since_break = 0 ∧
    s.take_break.driving_hours = s.driving_hours ∧
    s.take_break.window_hours = s.window_hours ∧
    s.take_break.cycle_hours = s.cycle_hours ∧
    s.take_break.on_duty = s.on_duty := by
  simp [HOSState.take_break]

/-- C5: evaluation of the code at the failing input.  A zero-distance first
leg emits no drive segment, so calculate_trip evaluates segments[-1] on an
empty list and raises IndexError (modelled as none) instead of returning
normally with the pickup segment; a zero-distance second leg, by contrast,
is tolerated (no drive segment for it, dropoff still emitted). -/
theorem calculate_trip_zero_distance_first_leg_raises :
    calculate_trip 5 zeroFirstLeg 0 0 = none ∧
    (tripPairs 10 zeroSecondLeg 0 0).map (fun p => p.1.segment_type) =
      ["drive", "pickup", "dropoff"] := by
  constructor
  · decide
  · decide

/-- A rest segment with a reason spanning midnight: day 0 hour 20 through
day 1 hour 6. -/
def csegRest : TripSegment := ⟨"rest", "off_duty", 20, 30, locA, locA, 0, "Rest"⟩

/-- C7 amended: generate_eld_logs returns [] on an empty segment list, and
otherwise one DailyLog per calendar day from the given trip_start_date
itself (the date of the first segment start when absent; no max is taken
with the first segment date) through the date of the last segment end,
with consecutive dates and 1-based day numbers. -/
theorem generate_eld_logs_day_range (segs : List TripSegment) (tsd : Option ℤ) :
    (segs = [] → generate_eld_logs segs tsd = []) ∧
    (∀ s0 rest, segs = s0 :: rest →
      (generate_eld_logs segs tsd).length =
        (dateOf (((s0 :: rest).getLast (List.cons_ne_nil s0 rest)).end_time) + 1 -
          tsd.getD (dateOf s0.start_time)).toNat ∧
      ∀ (i : ℕ) (hi : i < (generate_eld_logs segs tsd).length),
        ((generate_eld_logs segs tsd).get ⟨i, hi⟩).date =
          tsd.getD (dateOf s0.start_time) + i ∧
        ((generate_eld_logs segs tsd).get ⟨i, hi⟩).day_number = i + 1) := by
  constructor
  · rintro rfl; rfl
  · rintro s0 rest rfl
    refine ⟨by simp [generate_eld_logs], ?_⟩
    intro i hi
    have hi' : i < (List.range ((dateOf (((s0 :: rest).getLast
        (List.cons_ne_nil s0 rest)).end_time) + 1 -
        tsd.getD (dateOf s0.start_time)).toNat)).length := by
      simpa [generate_eld_logs] using hi
    simp [generate_eld_logs, dayLog]

/-- C7 counterexample: with a trip_start_date one day before the date of the
first segment start, the claim predicts logs for the days from
max(trip_start_date, first date) = 0 through 1, i.e. two logs, but the code
starts at trip_start_date itself and yields three. -/
theorem generate_eld_logs_ignores_max_with_first_date :
    (generate_eld_logs [csegRest] (some (-1))).length = 3 ∧
    ¬ ((generate_eld_logs [csegRest] (some (-1))).length =
        (dateOf csegRest.end_time + 1 - max (-1) (dateOf csegRest.start_time)).toNat) := by
  constructor
  · decide
  · decide

/-- C7 witness: the amended theorem evaluated at the empty list and at a
concrete one-segment trip spanning two days. -/
theorem generate_eld_logs_day_range_witness :
    generate_eld_logs [] none = [] ∧
    (generate_eld_logs [csegRest] none).length = 2 := by
  constructor
  · exact (generate_eld_logs_day_range [] none).1 rfl
  · have h := ((generate_eld_logs_day_range [csegRest] none).2 csegRest [] rfl).1
    rw [h]; decide

/-- The remarks of a day are exactly one formatted remark per segment that
overlaps the day and carries a nonempty reason: the owning-day guard of the
source (slice start at or after the segment start) is always satisfied,
because the slice start is a max with the segment start. -/
theorem dayRemarks_eq (d : ℤ) (segs : List TripSegment) :
    dayRemarks d segs =
      (segs.filter (fun s =>
        decide (sliceStart d s < sliceEnd d s ∧ s.reason ≠ ""))).map
        (fun s => fmtTime (sliceStart d s) ++ " - " ++ s.reason) := by
  induction segs with
  | nil => rfl
  | cons s rest ih =>
    have hstart : s.start_time ≤ sliceStart d s := le_max_left _ _
    by_cases h1 : sliceStart d s ≥ sliceEnd d s
    · have h1' : ¬ sliceStart d s < sliceEnd d s := not_lt_of_ge h1
      simp [dayRemarks, List.filter_cons, ih, h1, h1']
    · have h1' : sliceStart d s < sliceEnd d s := lt_of_not_ge h1
      by_cases h2 : s.reason = ""
      · simp [dayRemarks, List.filter_cons, ih, h1, h1', h2]
      · simp [dayRemarks, List.filter_cons, ih, h1, h1', h2, hstart]

/-- C8 amended: for every segment list and trip start date, each produced
DailyLog carries one remark (formatted from the sliced start, HH:MM - reason)
for every segment with a nonempty reason whose time span overlaps that day,
not only for the day owning the segment start: the source guard comparing the
sliced start with the original start is vacuously true. -/
theorem remarks_appended_to_every_overlapped_day
    (segs : List TripSegment) (tsd : Option ℤ) :
    ∀ log ∈ generate_eld_logs segs tsd,
      log.remarks =
        (segs.filter (fun s =>
          decide (sliceStart log.date s < sliceEnd log.date s ∧ s.reason ≠ ""))).map
          (fun s => fmtTime (sliceStart log.date s) ++ " - " ++ s.reason) := by
  intro log hlog
  match segs, hlog with
  | s0 :: rest, hlog =>
    simp only [generate_eld_logs, List.mem_map] at hlog
    obtain ⟨i, _, rfl⟩ := hlog
    simpa [dayLog] using dayRemarks_eq _ (s0 :: rest)

/-- C8 counterexample: a rest segment with a reason starting on day 0 and
ending on day 1; the day-1 log contains only a later slice of the segment,
yet it receives the remark (at the sliced start 00:00), contradicting the
claim that such days receive no remark. -/
theorem day_one_slice_still_gets_remark :
    ((generate_eld_logs [csegRest] none).getD 1 (dayLog [] 0 0)).date = 1 ∧
    dateOf csegRest.start_time = 0 ∧
    ((generate_eld_logs [csegRest] none).getD 1 (dayLog [] 0 0)).remarks =
      ["00:00 - Rest"] := by
  refine ⟨by decide, by decide, by decide⟩

/-- C8 witness: the amended theorem applied to the concrete two-day segment,
evaluated on the day-0 log. -/
theorem remarks_every_day_witness :
    ((generate_eld_logs [csegRest] none).getD 0 (dayLog [] 0 0)).remarks =
      ([csegRest].filter (fun s =>
        decide (sliceStart ((generate_eld_logs [csegRest] none).getD 0
            (dayLog [] 0 0)).date s < sliceEnd ((generate_eld_logs [csegRest] none).getD 0
            (dayLog [] 0 0)).date s ∧ s.reason ≠ ""))).map
        (fun s => fmtTime (sliceStart ((generate_eld_logs [csegRest] none).getD 0
            (dayLog [] 0 0)).date s) ++ " - " ++ s.reason) := by
  exact remarks_appended_to_every_overlapped_day [csegRest] none
    ((generate_eld_logs [csegRest] none).getD 0 (dayLog [] 0 0)) (by decide)

/-- Placeholder entry used as default for headD and getLastD. -/
def dummyEntry : LogEntry := ⟨"off_duty", 0, 0, "off_duty"⟩

/-- Every provisional entry of a day has hours within [0, 24], start at most
end, and both hours fixed by 4-digit rounding. -/
theorem daySlices_wf (d : ℤ) (segs : List TripSegment) :
    ∀ e ∈ daySlices d segs,
      0 ≤ e.start_hour ∧ e.start_hour ≤ e.end_hour ∧ e.end_hour ≤ 24 ∧
      pyRound 4 e.start_hour = e.start_hour ∧ pyRound 4 e.end_hour = e.end_hour := by
  induction segs with
  | nil => simp [daySlices]
  | cons s rest ih =>
    intro e he
    simp only [daySlices] at he
    by_cases h1 : sliceStart d s ≥ sliceEnd d s
    · rw [if_pos h1] at he
      exact ih e he
    · rw [if_neg h1] at he
      rcases List.mem_cons.mp he with rfl | he'
      · have ha : (24 * (d : ℚ)) ≤ sliceStart d s := le_max_right _ _
        have hb : sliceEnd d s ≤ 24 * (d : ℚ) + 24 := min_le_right _ _
        have hab : sliceStart d s ≤ sliceEnd d s := le_of_lt (lt_of_not_ge h1)
        refine ⟨pyRound_nonneg 4 (by linarith), pyRound_mono 4 (by linarith),
          pyRound_le_24 (by linarith), pyRound_idem 4 _, pyRound_idem 4 _⟩
      · exact ih e he'

/-- If a segment ends before every segment of a list begins, its day slice
ends at or before the start of every day slice of the list. -/
theorem daySlices_le (d : ℤ) (s : TripSegment) (rest : List TripSegment)
    (h : ∀ t ∈ rest, s.end_time ≤ t.start_time) :
    ∀ e ∈ daySlices d rest, pyRound 4 (sliceEnd d s - 24 * d) ≤ e.start_hour := by
  induction rest with
  | nil => simp [daySlices]
  | cons t rest' ih =>
    intro e he
    simp only [daySlices] at he
    by_cases h1 : sliceStart d t ≥ sliceEnd d t
    · rw [if_pos h1] at he
      exact ih (fun u hu => h u (List.mem_cons_of_mem t hu)) e he
    · rw [if_neg h1] at he
      rcases List.mem_cons.mp he with rfl | he'
      · show pyRound 4 (sliceEnd d s - 24 * d) ≤ pyRound 4 (sliceStart d t - 24 * d)
        apply pyRound_mono
        have h2 : sliceEnd d s ≤ s.end_time := min_le_left _ _
        have h3 : t.start_time ≤ sliceStart d t := le_max_left _ _
        have h4 : s.end_time ≤ t.start_time := h t (List.mem_cons_self t rest')
        linarith
      · exact ih (fun u hu => h u (List.mem_cons_of_mem t hu)) e he'

/-- Day slices of a time-ordered, non-overlapping segment list are pairwise
ordered: each slice ends at or before the next begins. -/
theorem daySlices_pairwise (d : ℤ) (segs : List TripSegment)
    (hord : segs.Pairwise (fun a b => a.end_time ≤ b.start_time)) :
    (daySlices d segs).Pairwise (fun e1 e2 => e1.end_hour ≤ e2.start_hour) := by
  induction segs with
  | nil => simp [daySlices]
  | cons s rest ih =>
    rcases List.pairwise_cons.mp hord with ⟨hs, hrest⟩
    simp only [daySlices]
    by_cases h1 : sliceStart d s ≥ sliceEnd d s
    · rw [if_pos h1]
      exact ih hrest
    · rw [if_neg h1]
      exact List.Pairwise.cons (fun e2 he2 => daySlices_le d s rest hs e2 he2) (ih hrest)

/-- Day slices of a time-ordered segment list are sorted by start hour. -/
theorem daySlices_sorted (d : ℤ) (segs : List TripSegment)
    (hord : segs.Pairwise (fun a b => a.end_time ≤ b.start_time)) :
    (daySlices d segs).Pairwise (fun e1 e2 => e1.start_hour ≤ e2.start_hour) := by
  refine (daySlices_pairwise d segs hord).imp_of_mem ?_
  intro a b ha _ hab
  have := (daySlices_wf d segs a ha).2.1
  linarith

/-- Inserting below every element of a list prepends. -/
theorem insertByStart_of_le (e : LogEntry) (l : List LogEntry)
    (h : ∀ f ∈ l, e.start_hour ≤ f.start_hour) : insertByStart e l = e :: l := by
  cases l with
  | nil => rfl
  | cons f rest => simp [insertByStart, h f (List.mem_cons_self f rest)]

/-- Sorting a list already sorted by start hour leaves it unchanged. -/
theorem sortByStart_of_sorted (l : List LogEntry)
    (h : l.Pairwise (fun a b => a.start_hour ≤ b.start_hour)) : sortByStart l = l := by
  induction l with
  | nil => rfl
  | cons e rest ih =>
    rcases List.pairwise_cons.mp h with ⟨he, hrest⟩
    simp only [sortByStart]
    rw [ih hrest, insertByStart_of_le e rest he]

/-- Specification of the gap-filling pass: given entries sorted and
non-overlapping, all lying in [0, 24] with 4-digit-rounded endpoints, and a
current hour below all of them, the filled list is empty only when there was
nothing to emit and the day is already (nearly) full; its entries stay in
[0, 24]; its first entry starts within 0.01 above the current hour; its last
entry ends in [23.99, 24]; and consecutive entries meet within 0.01. -/
theorem fillLoop_spec (es : List LogEntry) : ∀ cur : ℚ,
    0 ≤ cur → cur ≤ 24 → pyRound 4 cur = cur →
    es.Pairwise (fun a b => a.end_hour ≤ b.start_hour) →
    (∀ e ∈ es, 0 ≤ e.start_hour ∧ e.start_hour ≤ e.end_hour ∧ e.end_hour ≤ 24 ∧
      pyRound 4 e.start_hour = e.start_hour ∧ pyRound 4 e.end_hour = e.end_hour) →
    (∀ e ∈ es, cur ≤ e.start_hour) →
    ((fillLoop cur es = [] → es = [] ∧ 2399/100 ≤ cur) ∧
     (∀ e ∈ fillLoop cur es,
        0 ≤ e.start_hour ∧ e.start_hour ≤ e.end_hour ∧ e.end_hour ≤ 24) ∧
     (∀ h ∈ (fillLoop cur es).head?,
        cur ≤ h.start_hour ∧ h.start_hour ≤ cur + 1/100) ∧
     (∀ g ∈ (fillLoop cur es).getLast?,
        2399/100 ≤ g.end_hour ∧ g.end_hour ≤ 24) ∧
     (fillLoop cur es).Chain'
        (fun a b => a.end_hour ≤ b.start_hour ∧ b.start_hour ≤ a.end_hour + 1/100)) := by
  induction es with
  | nil =>
    intro cur hc0 hc24 hcfix _ _ _
    by_cases hlt : cur < 2399/100
    · simp only [fillLoop, if_pos hlt, hcfix]
      refine ⟨by simp, ?_, ?_, ?_, ?_⟩
      · intro e he
        simp only [List.mem_singleton] at he
        subst he
        exact ⟨hc0, by norm_num [hc24], by norm_num⟩
      · intro h hh
        simp only [List.head?_cons, Option.mem_def, Option.some_inj] at hh
        subst hh
        constructor <;> norm_num
      · intro g hg
        simp only [List.getLast?_singleton, Option.mem_def, Option.some_inj] at hg
        subst hg
        constructor <;> norm_num
      · exact List.chain'_singleton _
    · simp only [fillLoop, if_neg hlt]
      refine ⟨fun _ => ⟨by trivial, le_of_not_lt hlt⟩,
        by simp, by simp, by simp, List.chain'_nil⟩
  | cons e rest ih =>
    intro cur hc0 hc24 hcfix hp hwf hcb
    rcases List.pairwise_cons.mp hp with ⟨hhead, htail⟩
    have he := hwf e (List.mem_cons_self e rest)
    obtain ⟨he0, hee, he24, hefx, hefy⟩ := he
    have hce : cur ≤ e.start_hour := hcb e (List.mem_cons_self e rest)
    have ihspec := ih e.end_hour (le_trans he0 hee) he24 hefy htail
      (fun f hf => hwf f (List.mem_cons_of_mem e hf)) hhead
    obtain ⟨ihA, ihB, ihC, ihD, ihE⟩ := ihspec
    have tail_last : ∀ g ∈ (e :: fillLoop e.end_hour rest).getLast?,
        2399/100 ≤ g.end_hour ∧ g.end_hour ≤ 24 := by
      intro g hg
      cases hr : fillLoop e.end_hour rest with
      | nil =>
        rw [hr] at hg
        simp only [List.getLast?_singleton, Option.mem_def, Option.some_inj] at hg
        subst hg
        exact ⟨(ihA hr).2, he24⟩
      | cons y ys =>
        rw [hr] at hg
        rw [List.getLast?_cons_cons] at hg
        rw [← hr] at hg
        exact ihD g hg
    have tail_chain : (e :: fillLoop e.end_hour rest).Chain'
        (fun a b => a.end_hour ≤ b.start_hour ∧ b.start_hour ≤ a.end_hour + 1/100) := by
      rw [List.chain'_cons']
      exact ⟨fun y hy => ihC y hy, ihE⟩
    have tail_wf : ∀ f ∈ e :: fillLoop e.end_hour rest,
        0 ≤ f.start_hour ∧ f.start_hour ≤ f.end_hour ∧ f.end_hour ≤ 24 := by
      intro f hf
      rcases List.mem_cons.mp hf with rfl | hf'
      · exact ⟨he0, hee, he24⟩
      · exact ihB f hf'
    by_cases hgap : e.start_hour > cur + 1/100
    · simp only [fillLoop, if_pos hgap, hcfix, hefx]
      refine ⟨by simp, ?_, ?_, ?_, ?_⟩
      · intro f hf
        rcases List.mem_cons.mp hf with rfl | hf'
        · exact ⟨hc0, by linarith, by linarith⟩
        · exact tail_wf f hf'
      · intro h hh
        simp only [List.head?_cons, Option.mem_def, Option.some_inj] at hh
        subst hh
        exact ⟨le_refl _, by linarith⟩
      · intro g hg
        rw [List.getLast?_cons_cons] at hg
        exact tail_last g hg
      · rw [List.chain'_cons']
        refine ⟨?_, tail_chain⟩
        intro y hy
        simp only [List.head?_cons, Option.mem_def, Option.some_inj] at hy
        subst hy
        exact ⟨le_refl _, by linarith⟩
    · simp only [fillLoop, if_neg hgap]
      refine ⟨by simp, tail_wf, ?_, tail_last, tail_chain⟩
      intro h hh
      simp only [List.head?_cons, Option.mem_def, Option.some_inj] at hh
      subst hh
      exact ⟨hce, by linarith [le_of_not_gt hgap]⟩

/-- A chain property implies the same property for all adjacent pairs
(the zip of a list with its tail). -/
theorem chain'_to_zip {α : Type} {R : α → α → Prop} :
    ∀ es : List α, es.Chain' R → ∀ p ∈ es.zip es.tail, R p.1 p.2
  | [], _, p, hp => by simp at hp
  | [_], _, p, hp => by simp at hp
  | a :: b :: rest, h, p, hp => by
    rw [List.chain'_cons] at h
    rcases List.mem_cons.mp hp with rfl | hp'
    · exact h.1
    · exact chain'_to_zip (b :: rest) h.2 p hp'

/-- The tiling property the daily-log entries actually satisfy: nonempty,
first entry starting within 0.01 of hour 0, last entry ending within 0.01 of
hour 24, all entries inside [0, 24] with start at most end, and each adjacent
pair meeting within 0.01, the later start at or after the earlier end (which
also makes them sorted by start hour). -/
def tilesTol (es : List LogEntry) : Prop :=
  es ≠ [] ∧
  (0 ≤ (es.headD dummyEntry).start_hour ∧ (es.headD dummyEntry).start_hour ≤ 1/100) ∧
  (2399/100 ≤ (es.getLastD dummyEntry).end_hour ∧ (es.getLastD dummyEntry).end_hour ≤ 24) ∧
  (∀ e ∈ es, 0 ≤ e.start_hour ∧ e.start_hour ≤ e.end_hour ∧ e.end_hour ≤ 24) ∧
  (∀ p ∈ es.zip es.tail,
    p.1.end_hour ≤ p.2.start_hour ∧ p.2.start_hour ≤ p.1.end_hour + 1/100)

instance (es : List LogEntry) : Decidable (tilesTol es) :=
  inferInstanceAs (Decidable (_ ≠ _ ∧ (_ ≤ _ ∧ _ ≤ _) ∧ (_ ≤ _ ∧ _ ≤ _) ∧
    (∀ e ∈ es, _ ≤ _ ∧ _ ≤ _ ∧ _ ≤ _) ∧ (∀ p ∈ es.zip es.tail, _ ≤ _ ∧ _ ≤ _)))

/-- The gap-filled entries of any day over time-ordered, non-overlapping
segments satisfy the tiling property. -/
theorem fill_gaps_tiles (d : ℤ) (segs : List TripSegment)
    (hord : segs.Pairwise (fun a b => a.end_time ≤ b.start_time)) :
    tilesTol (fill_gaps (daySlices d segs)) := by
  cases hds : daySlices d segs with
  | nil =>
    show tilesTol [{ status := "off_duty", start_hour := 0, end_hour := 24
                     segment_type := "off_duty" }]
    refine ⟨List.cons_ne_nil _ _, ?_, ?_, ?_, ?_⟩
    · norm_num [List.headD]
    · norm_num [List.getLastD]
    · intro e he
      rcases List.mem_singleton.mp he with rfl
      norm_num
    · intro p hp
      simp at hp
  | cons e0 es0 =>
    have hwf := daySlices_wf d segs
    have hp := daySlices_pairwise d segs hord
    have hsorted := daySlices_sorted d segs hord
    rw [hds] at hwf hp hsorted
    have hid : sortByStart (e0 :: es0) = e0 :: es0 := sortByStart_of_sorted _ hsorted
    have hfg : fill_gaps (e0 :: es0) = fillLoop 0 (e0 :: es0) := by
      simp only [fill_gaps, hid]
    rw [hfg]
    have spec := fillLoop_spec (e0 :: es0) 0 (le_refl 0) (by norm_num) (pyRound_zero 4)
      hp hwf (fun f hf => (hwf f hf).1)
    obtain ⟨hA, hB, hC, hD, hE⟩ := spec
    have hne : fillLoop 0 (e0 :: es0) ≠ [] := by
      intro h
      exact List.cons_ne_nil e0 es0 (hA h).1
    refine ⟨hne, ?_, ?_, hB, chain'_to_zip _ hE⟩
    · rw [List.headD_eq_head?, List.head?_eq_head hne]
      have := hC _ (List.head?_eq_head hne)
      simpa using this
    · have hgl : (fillLoop 0 (e0 :: es0)).getLast? =
          some ((fillLoop 0 (e0 :: es0)).getLast hne) := List.getLast?_eq_getLast _ hne
      rw [List.getLastD_eq_getLast?, hgl]
      have := hD _ hgl
      simpa using this

/-- C6 amended: for every segment list that is time-ordered and
non-overlapping (as the planner emits; for arbitrary overlapping segments the
property fails, see the counterexample), every DailyLog produced by
generate_eld_logs has entries that tile [0, 24] up to the 0.01 gap tolerance
of the source: sorted, consecutive entries meeting within 0.01, the first
entry starting within 0.01 of 0 and the last ending within 0.01 of 24. -/
theorem eld_entries_tile_day (segs : List TripSegment) (tsd : Option ℤ)
    (hord : segs.Pairwise (fun a b => a.end_time ≤ b.start_time)) :
    ∀ log ∈ generate_eld_logs segs tsd, tilesTol log.entries := by
  intro log hlog
  match segs, hlog with
  | s0 :: rest0, hlog =>
    simp only [generate_eld_logs, List.mem_map] at hlog
    obtain ⟨i, _, rfl⟩ := hlog
    exact fill_gaps_tiles _ _ hord

/-- The tiling property as literally claimed: first entry starting exactly
at 0, last ending exactly at 24, entries sorted by start_hour, and each
consecutive end_hour equal to the next start_hour within 0.01. -/
def tilesClaimed (es : List LogEntry) : Prop :=
  es ≠ [] ∧
  (es.headD dummyEntry).start_hour = 0 ∧
  (es.getLastD dummyEntry).end_hour = 24 ∧
  (∀ p ∈ es.zip es.tail, p.1.start_hour ≤ p.2.start_hour) ∧
  (∀ p ∈ es.zip es.tail, |p.1.end_hour - p.2.start_hour| ≤ 1/100)

instance (es : List LogEntry) : Decidable (tilesClaimed es) :=
  inferInstanceAs (Decidable (_ ≠ _ ∧ _ = _ ∧ _ = _ ∧
    (∀ p ∈ es.zip es.tail, _ ≤ _) ∧ (∀ p ∈ es.zip es.tail, _ ≤ _)))

/-- Two identical overlapping driving segments on one day. -/
def csegDup : TripSegment := ⟨"drive", "driving", 1, 2, locA, locA, 55, "Driving"⟩

/-- C6 counterexample: for a segment list with two overlapping segments the
produced day has two entries over the same hour interval, so one consecutive
pair has end_hour 2 against start_hour 1, a gap of 1 hour, and the entries do
not tile [0, 24]; the claim quantifies over every segment list and fails
here. -/
theorem overlapping_segments_break_tiling :
    ¬ ∀ log ∈ generate_eld_logs [csegDup, csegDup] none,
        tilesClaimed log.entries := by
  decide

/-- C6 witness: the amended theorem applied to a concrete ordered segment
list, on the day-0 log. -/
theorem eld_entries_tile_day_witness :
    tilesTol (((generate_eld_logs [csegRest] none).getD 0 (dayLog [] 0 0)).entries) :=
  eld_entries_tile_day [csegRest] none (by decide) _ (by decide)

/-- When remaining_driving is positive it is at most each of the four
individual allowances. -/
theorem remaining_driving_le (st : HOSState) (h : 0 < st.remaining_driving) :
    st.remaining_driving ≤ 11 - st.driving_hours ∧
    st.remaining_driving ≤ 14 - st.window_hours ∧
    st.remaining_driving ≤ 8 - st.hours_since_break ∧
    st.remaining_driving ≤ 70 - st.cycle_hours := by
  unfold HOSState.remaining_driving at *
  have hm : 0 < min (11 - st.driving_hours)
      (min (14 - st.window_hours)
        (min (8 - st.hours_since_break) (70 - st.cycle_hours))) := by
    rcases lt_max_iff.mp h with h0 | hm
    · exact absurd h0 (lt_irrefl 0)
    · exact hm
  rw [max_eq_right (le_of_lt hm)]
  refine ⟨min_le_left _ _, ?_, ?_, ?_⟩
  · exact le_trans (min_le_right _ _) (min_le_left _ _)
  · exact le_trans (min_le_right _ _) (le_trans (min_le_right _ _) (min_le_left _ _))
  · exact le_trans (min_le_right _ _) (le_trans (min_le_right _ _) (min_le_right _ _))

/-- Driving for at most the remaining allowance leaves every ledger counter
at or below its limit. -/
theorem add_driving_bounds (st : HOSState) (h : ℚ)
    (hpos : 0 < st.remaining_driving) (hle : h ≤ st.remaining_driving) :
    (st.add_driving h).driving_hours ≤ 11 ∧
    (st.add_driving h).window_hours ≤ 14 ∧
    (st.add_driving h).hours_since_break ≤ 8 ∧
    (st.add_driving h).cycle_hours ≤ 70 := by
  obtain ⟨h1, h2, h3, h4⟩ := remaining_driving_le st hpos
  simp only [HOSState.add_driving]
  refine ⟨by linarith, by linarith, by linarith, by linarith⟩

/-- Every drive segment emitted by one loop iteration is paired with a
ledger snapshot whose four counters are at or below their limits. -/
theorem planStep_drive_bounds (sl el : Loc) (tot : ℚ) (st : HOSState)
    (t mr msf : ℚ) :
    ∀ p ∈ (planStep sl el tot st t mr msf).segs, p.1.segment_type = "drive" →
      p.2.driving_hours ≤ 11 ∧ p.2.window_hours ≤ 14 ∧
      p.2.hours_since_break ≤ 8 ∧ p.2.cycle_hours ≤ 70 := by
  intro p hp htype
  simp only [planStep] at hp
  by_cases hlim : st.remaining_driving ≤ 0
  · rw [if_pos hlim] at hp
    split_ifs at hp <;>
      (rcases List.mem_singleton.mp hp with rfl; simp at htype)
  · rw [if_neg hlim] at hp
    have hpos : 0 < st.remaining_driving := lt_of_not_ge hlim
    have h55 : (0 : ℚ) < 55 := by norm_num
    set L := st.remaining_driving with hL
    set mtf0 := 1000 - msf with hmtf0
    set mtf : ℚ := if mtf0 ≤ 0 then 1000 else mtf0 with hmtf
    set m0 : ℚ := min mr (L * 55) with hm0
    set nf : Bool := decide (m0 ≥ mtf ∧ mr > mtf) with hnf
    set m1 : ℚ := if nf then mtf else m0 with hm1
    have hm1le : m1 ≤ L * 55 := by
      rw [hm1]
      split_ifs with hf
      · have := of_decide_eq_true (hnf ▸ hf)
        exact le_trans this.1 (min_le_right _ _)
      · exact min_le_right _ _
    have hhle : m1 / 55 ≤ L := by
      rw [div_le_iff₀ h55]
      linarith [hm1le]
    split_ifs at hp with h1 h2 h3 h4 h5 h6 h7 h8 h9 h10 h11 <;>
      dsimp only at hp <;>
      simp only [List.mem_append, List.mem_cons, List.mem_singleton,
        List.not_mem_nil, or_false, false_or] at hp <;>
      rcases hp with rfl | rfl <;>
      first
        | exact add_driving_bounds st _ hpos hhle
        | exact add_driving_bounds st _ hpos
            (le_of_lt (lt_of_lt_of_le h1.1 hhle))
        | exact absurd htype (by simp)

/-- Drive-segment ledger bounds lift to the fueled loop. -/
theorem planDrivingAux_drive_bounds (sl el : Loc) (tot : ℚ) :
    ∀ (fuel : ℕ) (st : HOSState) (t mr msf : ℚ),
      ∀ p ∈ (planDrivingAux sl el tot fuel st t mr msf).segs,
        p.1.segment_type = "drive" →
          p.2.driving_hours ≤ 11 ∧ p.2.window_hours ≤ 14 ∧
          p.2.hours_since_break ≤ 8 ∧ p.2.cycle_hours ≤ 70 := by
  intro fuel
  induction fuel with
  | zero => intro st t mr msf p hp; simp [planDrivingAux] at hp
  | succ n ih =>
    intro st t mr msf p hp htype
    simp only [planDrivingAux] at hp
    by_cases hmr : mr > 1/10
    · rw [if_pos hmr] at hp
      rcases List.mem_append.mp hp with hp1 | hp1
      · exact planStep_drive_bounds sl el tot st t mr msf p hp1 htype
      · exact ih _ _ _ _ p hp1 htype
    · rw [if_neg hmr] at hp
      simp at hp
  
/-- The rest checker never emits a drive segment. -/
theorem check_and_add_rest_no_drive (st : HOSState) (t : ℚ) (loc : Loc) :
    ∀ p ∈ (check_and_add_rest_if_needed st t loc).1,
      p.1.segment_type ≠ "drive" := by
  intro p hp
  unfold check_and_add_rest_if_needed at hp
  split_ifs at hp <;>
    simp only [List.mem_singleton, List.not_mem_nil] at hp <;>
    (subst hp; simp)

/-- Drive-segment ledger bounds hold along the trip loop: any drive pair of
the result satisfies the limits provided every drive pair of the accumulator
does. -/
theorem calcTripGo_drive_bounds (fuel : ℕ) :
    ∀ (legs : List RouteLeg) (st : HOSState) (t : ℚ)
      (acc : List (TripSegment × HOSState)),
      (∀ p ∈ acc, p.1.segment_type = "drive" →
        p.2.driving_hours ≤ 11 ∧ p.2.window_hours ≤ 14 ∧
        p.2.hours_since_break ≤ 8 ∧ p.2.cycle_hours ≤ 70) →
      ∀ res, calcTripGo fuel legs st t acc = some res →
      ∀ p ∈ res, p.1.segment_type = "drive" →
        p.2.driving_hours ≤ 11 ∧ p.2.window_hours ≤ 14 ∧
        p.2.hours_since_break ≤ 8 ∧ p.2.cycle_hours ≤ 70 := by
  intro legs
  induction legs with
  | nil =>
    intro st t acc hacc res hres
    simp only [calcTripGo, Option.some_inj] at hres
    subst hres
    exact hacc
  | cons leg rest ih =>
    intro st t acc hacc res hres
    simp only [calcTripGo] at hres
    by_cases hty : leg.leg_type = "drive_to_pickup" ∨ leg.leg_type = "drive_to_dropoff"
    · rw [if_pos hty] at hres
      cases hlast : (acc ++ (planDrivingAux leg.start_location leg.end_location
          leg.distance_miles fuel st t leg.distance_miles 0).segs).getLast? with
      | none => rw [hlast] at hres; simp at hres
      | some last =>
        rw [hlast] at hres
        refine ih _ _ _ ?_ res hres
        intro p hp htype
        rcases List.mem_append.mp hp with hp1 | hp1
        · rcases List.mem_append.mp hp1 with hp2 | hp2
          · rcases List.mem_append.mp hp2 with hp3 | hp3
            · exact hacc p hp3 htype
            · exact planDrivingAux_drive_bounds _ _ _ fuel st t _ 0 p hp3 htype
          · exact absurd htype (check_and_add_rest_no_drive _ _ _ p hp2)
        · rcases List.mem_singleton.mp hp1 with rfl
          rcases hty with hty | hty <;> simp [hty] at htype
    · rw [if_neg hty] at hres
      exact ih _ _ _ hacc res hres

/-- A one-leg demo trip: 55 miles to the pickup. -/
def demoLegs : List RouteLeg := [⟨"drive_to_pickup", locA, locB, 55, 1⟩]

/-- Default pair for getD on segment/snapshot lists. -/
def dummyPair : TripSegment × HOSState := (csegRest, HOSState.init 0)

/-- C1: for every route-leg list, every current_cycle_used in [0, 70] (and
in fact for every input), every start time and every iteration budget,
immediately after each drive segment emitted by calculate_trip the ledger
satisfies driving_hours at most 11, window_hours at most 14,
hours_since_break at most 8 and cycle_hours at most 70, within 1e-6 slack
(the rational model achieves the bounds exactly). -/
theorem ledger_compliance_after_drive (fuel : ℕ) (legs : List RouteLeg)
    (c t0 : ℚ) (hc0 : 0 ≤ c) (hc70 : c ≤ 70) :
    ∀ p ∈ tripPairs fuel legs c t0, p.1.segment_type = "drive" →
      p.2.driving_hours ≤ 11 + 1/1000000 ∧
      p.2.window_hours ≤ 14 + 1/1000000 ∧
      p.2.hours_since_break ≤ 8 + 1/1000000 ∧
      p.2.cycle_hours ≤ 70 + 1/1000000 := by
  intro p hp htype
  unfold tripPairs at hp
  cases hres : calculate_trip fuel legs c t0 with
  | none => rw [hres] at hp; simp at hp
  | some res =>
    rw [hres] at hp
    simp only [Option.getD_some] at hp
    have := calcTripGo_drive_bounds fuel legs (HOSState.init c) t0 []
      (by intro q hq; simp at hq) res hres p hp htype
    obtain ⟨h1, h2, h3, h4⟩ := this
    refine ⟨by linarith, by linarith, by linarith, by linarith⟩

/-- C1 witness: the theorem applied to the demo trip at cycle 0, start 0,
on its first emitted pair (the 55-mile drive). -/
theorem ledger_compliance_witness :
    ((tripPairs 5 demoLegs 0 0).getD 0 dummyPair).2.driving_hours ≤ 11 + 1/1000000 ∧
    ((tripPairs 5 demoLegs 0 0).getD 0 dummyPair).2.window_hours ≤ 14 + 1/1000000 ∧
    ((tripPairs 5 demoLegs 0 0).getD 0 dummyPair).2.hours_since_break ≤ 8 + 1/1000000 ∧
    ((tripPairs 5 demoLegs 0 0).getD 0 dummyPair).2.cycle_hours ≤ 70 + 1/1000000 :=
  ledger_compliance_after_drive 5 demoLegs 0 0 (by norm_num) (by norm_num)
    _ (by decide) (by decide)

/-- Contiguity of a segment/snapshot list from a given instant: the first
segment starts there and each segment starts where the previous ended. -/
def chainFrom (t : ℚ) : List (TripSegment × HOSState) → Prop
  | [] => True
  | p :: rest => p.1.start_time = t ∧ chainFrom p.1.end_time rest

/-- End instant of a segment list: the end of its last segment, or the given
instant when the list is empty. -/
def endOf (t : ℚ) (l : List (TripSegment × HOSState)) : ℚ :=
  (l.getLast?).elim t (fun p => p.1.end_time)

/-- endOf of a cons steps to the head's end. -/
theorem endOf_cons (t : ℚ) (p : TripSegment × HOSState)
    (l : List (TripSegment × HOSState)) :
    endOf t (p :: l) = endOf p.1.end_time l := by
  cases l with
  | nil => rfl
  | cons q rest =>
    unfold endOf
    rw [List.getLast?_cons_cons,
      List.getLast?_eq_getLast _ (List.cons_ne_nil q rest)]
    rfl

/-- endOf distributes over append. -/
theorem endOf_append (t : ℚ) (a b : List (TripSegment × HOSState)) :
    endOf t (a ++ b) = endOf (endOf t a) b := by
  cases hb : b.getLast? with
  | none =>
    rw [List.getLast?_eq_none_iff] at hb
    subst hb
    simp [endOf]
  | some q =>
    unfold endOf
    rw [List.getLast?_append, hb]
    simp

/-- chainFrom distributes over append. -/
theorem chainFrom_append (t : ℚ) (a b : List (TripSegment × HOSState)) :
    chainFrom t (a ++ b) ↔ chainFrom t a ∧ chainFrom (endOf t a) b := by
  induction a generalizing t with
  | nil => simp [chainFrom, endOf]
  | cons p a' ih =>
    simp only [List.cons_append, List.append_eq, chainFrom, ih, endOf_cons, and_assoc]

/-- A chained list has exact end-to-start contiguity between consecutive
segments. -/
theorem chainFrom_chain' : ∀ (t : ℚ) (l : List (TripSegment × HOSState)),
    chainFrom t l → l.Chain' (fun a b => a.1.end_time = b.1.start_time)
  | _, [], _ => List.chain'_nil
  | _, [_], _ => List.chain'_singleton _
  | t, p :: q :: rest, h => by
    rw [List.chain'_cons]
    exact ⟨h.2.1.symm, chainFrom_chain' p.1.end_time (q :: rest) h.2⟩

/-- One loop iteration emits a chained block starting at the clock, and its
new clock is the end of the block. -/
theorem planStep_chain (sl el : Loc) (tot : ℚ) (st : HOSState) (t mr msf : ℚ) :
    chainFrom t (planStep sl el tot st t mr msf).segs ∧
    (planStep sl el tot st t mr msf).time =
      endOf t (planStep sl el tot st t mr msf).segs := by
  simp only [planStep]
  split_ifs <;> constructor <;> dsimp only <;> simp [chainFrom, endOf]

/-- The fueled loop emits a chained block starting at the clock, and its
final clock is the end of the block. -/
theorem planDrivingAux_chain (sl el : Loc) (tot : ℚ) :
    ∀ (fuel : ℕ) (st : HOSState) (t mr msf : ℚ),
      chainFrom t (planDrivingAux sl el tot fuel st t mr msf).segs ∧
      (planDrivingAux sl el tot fuel st t mr msf).time =
        endOf t (planDrivingAux sl el tot fuel st t mr msf).segs := by
  intro fuel
  induction fuel with
  | zero => intro st t mr msf; exact ⟨trivial, rfl⟩
  | succ n ih =>
    intro st t mr msf
    simp only [planDrivingAux]
    by_cases hmr : mr > 1/10
    · rw [if_pos hmr]
      obtain ⟨hs1, hs2⟩ := planStep_chain sl el tot st t mr msf
      obtain ⟨hr1, hr2⟩ := ih (planStep sl el tot st t mr msf).state
        (planStep sl el tot st t mr msf).time
        (planStep sl el tot st t mr msf).mr (planStep sl el tot st t mr msf).msf
      constructor
      · rw [chainFrom_append]
        exact ⟨hs1, by rw [← hs2]; exact hr1⟩
      · rw [endOf_append, ← hs2]
        exact hr2
    · rw [if_neg hmr]
      exact ⟨trivial, rfl⟩

/-- The rest checker emits a chained block starting at the given instant. -/
theorem check_rest_chain (st : HOSState) (t : ℚ) (loc : Loc) :
    chainFrom t (check_and_add_rest_if_needed st t loc).1 := by
  unfold check_and_add_rest_if_needed
  split_ifs <;> simp [chainFrom]

/-- The trip loop preserves contiguity: if the accumulated segments are
chained from the trip start and the clock is their end, the final segment
list is chained from the trip start. -/
theorem calcTripGo_chain (fuel : ℕ) :
    ∀ (legs : List RouteLeg) (st : HOSState) (t t0 : ℚ)
      (acc : List (TripSegment × HOSState)),
      chainFrom t0 acc → t = endOf t0 acc →
      ∀ res, calcTripGo fuel legs st t acc = some res → chainFrom t0 res := by
  intro legs
  induction legs with
  | nil =>
    intro st t t0 acc hacc _ res hres
    simp only [calcTripGo, Option.some_inj] at hres
    subst hres
    exact hacc
  | cons leg rest ih =>
    intro st t t0 acc hacc ht res hres
    simp only [calcTripGo] at hres
    by_cases hty : leg.leg_type = "drive_to_pickup" ∨ leg.leg_type = "drive_to_dropoff"
    · rw [if_pos hty] at hres
      set r := planDrivingAux leg.start_location leg.end_location
        leg.distance_miles fuel st t leg.distance_miles 0 with hr
      obtain ⟨hr1, hr2⟩ := planDrivingAux_chain leg.start_location leg.end_location
        leg.distance_miles fuel st t leg.distance_miles 0
      have hacc1 : chainFrom t0 (acc ++ r.segs) := by
        rw [chainFrom_append]
        exact ⟨hacc, by rw [← ht]; exact hr1⟩
      cases hlast : (acc ++ r.segs).getLast? with
      | none => rw [hlast] at hres; simp at hres
      | some last =>
        rw [hlast] at hres
        dsimp only at hres
        have hend1 : endOf t0 (acc ++ r.segs) = last.1.end_time := by
          unfold endOf; rw [hlast]; rfl
        have hrc := check_rest_chain r.state last.1.end_time leg.end_location
        have hacc2 : chainFrom t0 ((acc ++ r.segs) ++
            (check_and_add_rest_if_needed r.state last.1.end_time leg.end_location).1) := by
          rw [chainFrom_append]
          exact ⟨hacc1, by rw [hend1]; exact hrc⟩
        have hne2 : (acc ++ r.segs) ++
            (check_and_add_rest_if_needed r.state last.1.end_time leg.end_location).1 ≠ [] := by
          intro hcontra
          rcases List.append_eq_nil.mp hcontra with ⟨h1, _⟩
          rw [h1] at hlast
          simp at hlast
        have hgl := List.getLast?_eq_getLast _ hne2
        refine ih _ _ _ _ ?_ ?_ res hres
        · rw [chainFrom_append]
          refine ⟨hacc2, ?_⟩
          simp only [chainFrom, and_true]
          unfold endOf
          rw [hgl]
          split_ifs <;> rfl
        · rw [endOf_append]
          rfl
    · rw [if_neg hty] at hres
      exact ih _ _ _ _ hacc ht res hres

/-- C2: for every input (legs, cycle, start time, iteration budget), any two
consecutive segments emitted by calculate_trip satisfy end == start with
exact equality, within a leg and across leg boundaries alike. -/
theorem timeline_contiguity (fuel : ℕ) (legs : List RouteLeg) (c t0 : ℚ) :
    (tripPairs fuel legs c t0).Chain'
      (fun a b => a.1.end_time = b.1.start_time) := by
  unfold tripPairs
  cases hres : calculate_trip fuel legs c t0 with
  | none => simp
  | some res =>
    simp only [Option.getD_some]
    exact chainFrom_chain' t0 res
      (calcTripGo_chain fuel legs (HOSState.init c) t0 t0 [] trivial rfl res hres)

/-- Sum of distance_miles over drive segments of a segment/snapshot list. -/
def driveMilesSum (l : List (TripSegment × HOSState)) : ℚ :=
  (l.map (fun p => if p.1.segment_type = "drive" then p.1.distance_miles else 0)).sum

/-- driveMilesSum distributes over append. -/
theorem driveMilesSum_append (a b : List (TripSegment × HOSState)) :
    driveMilesSum (a ++ b) = driveMilesSum a + driveMilesSum b := by
  simp [driveMilesSum]

/-- One loop iteration drives exactly the miles it removes from
miles_remaining, never increases miles_remaining, and keeps it nonnegative. -/
theorem planStep_driveSum (sl el : Loc) (tot : ℚ) (st : HOSState)
    (t mr msf : ℚ) (hmr : 0 < mr) :
    driveMilesSum (planStep sl el tot st t mr msf).segs =
      mr - (planStep sl el tot st t mr msf).mr ∧
    (planStep sl el tot st t mr msf).mr ≤ mr ∧
    0 ≤ (planStep sl el tot st t mr msf).mr := by
  simp only [planStep]
  by_cases hlim : st.remaining_driving ≤ 0
  · rw [if_pos hlim]
    split_ifs <;> exact ⟨by simp [driveMilesSum], le_refl _, le_of_lt hmr⟩
  · rw [if_neg hlim]
    have hLpos : 0 < st.remaining_driving := lt_of_not_ge hlim
    set L := st.remaining_driving with hL
    set mtf0 := 1000 - msf with hmtf0
    set mtf : ℚ := if mtf0 ≤ 0 then 1000 else mtf0 with hmtf
    set m0 : ℚ := min mr (L * 55) with hm0
    set nf : Bool := decide (m0 ≥ mtf ∧ mr > mtf) with hnf
    set m1 : ℚ := if nf then mtf else m0 with hm1
    have hm1mr : m1 ≤ mr := by
      rw [hm1]
      split_ifs with hf
      · have := of_decide_eq_true (hnf ▸ hf)
        exact le_of_lt this.2
      · exact min_le_left _ _
    have hmtfpos : 0 < mtf := by
      rw [hmtf]
      split_ifs with h
      · norm_num
      · exact not_le.mp h
    have hm0pos : 0 < m0 := by
      rw [hm0]
      exact lt_min hmr (by positivity)
    have hm1pos : 0 < m1 := by
      rw [hm1]
      split_ifs
      · exact hmtfpos
      · exact hm0pos
    have htbnn : (0 : ℚ) ≤ st.remaining_before_break := le_max_left 0 _
    by_cases hcarve : (m1 / 55 > st.remaining_before_break ∧
        st.remaining_before_break > 0)
    · rw [if_pos hcarve]
      have hmbb : st.remaining_before_break * 55 < m1 := by
        have h2 := hcarve.1
        rw [gt_iff_lt, lt_div_iff₀ (by norm_num : (0:ℚ) < 55)] at h2
        linarith
      split_ifs <;> refine ⟨?_, ?_, ?_⟩ <;> dsimp only <;>
        (try simp [driveMilesSum]) <;> linarith
    · rw [if_neg hcarve]
      split_ifs <;> refine ⟨?_, ?_, ?_⟩ <;> dsimp only <;>
        (try simp [driveMilesSum]) <;> linarith

/-- Bookkeeping of the fueled loop: the drive miles emitted equal the miles
removed from miles_remaining, which never increases and stays nonnegative;
when the loop completed, at most 0.1 miles remain. -/
theorem planDrivingAux_driveSum (sl el : Loc) (tot : ℚ) :
    ∀ (fuel : ℕ) (st : HOSState) (t mr msf : ℚ), 0 ≤ mr →
      driveMilesSum (planDrivingAux sl el tot fuel st t mr msf).segs =
        mr - (planDrivingAux sl el tot fuel st t mr msf).mr ∧
      (planDrivingAux sl el tot fuel st t mr msf).mr ≤ mr ∧
      0 ≤ (planDrivingAux sl el tot fuel st t mr msf).mr ∧
      ((planDrivingAux sl el tot fuel st t mr msf).completed = true →
        (planDrivingAux sl el tot fuel st t mr msf).mr ≤ 1/10) := by
  intro fuel
  induction fuel with
  | zero =>
    intro st t mr msf hmr
    refine ⟨by simp [planDrivingAux, driveMilesSum], le_refl _, hmr, ?_⟩
    intro hc
    simp only [planDrivingAux, decide_eq_true_eq] at hc
    show mr ≤ 1/10
    exact le_of_not_lt hc
  | succ n ih =>
    intro st t mr msf hmr
    simp only [planDrivingAux]
    by_cases hgt : mr > 1/10
    · rw [if_pos hgt]
      obtain ⟨hs1, hs2, hs3⟩ := planStep_driveSum sl el tot st t mr msf (by linarith)
      obtain ⟨hr1, hr2, hr3, hr4⟩ := ih (planStep sl el tot st t mr msf).state
        (planStep sl el tot st t mr msf).time
        (planStep sl el tot st t mr msf).mr (planStep sl el tot st t mr msf).msf hs3
      refine ⟨?_, by dsimp only; linarith, by dsimp only; linarith, ?_⟩
      · dsimp only
        rw [driveMilesSum_append, hs1, hr1]
        ring
      · intro hc
        exact hr4 hc
    · rw [if_neg hgt]
      exact ⟨by simp [driveMilesSum], le_refl _, hmr, fun _ => le_of_not_lt hgt⟩

/-- C3: for every leg with nonnegative distance whose planning loop runs to
completion within the iteration budget, the sum of distance_miles over the
drive segments emitted for the leg equals the leg distance within 0.5 miles
(the loop exits with at most 0.1 miles unassigned). -/
theorem distance_conservation (fuel : ℕ) (st : HOSState) (t : ℚ)
    (sl el : Loc) (total : ℚ) (h0 : 0 ≤ total)
    (hc : (plan_driving_segment fuel st t sl el total).completed = true) :
    |driveMilesSum (plan_driving_segment fuel st t sl el total).segs - total| ≤ 1/2 := by
  unfold plan_driving_segment at *
  obtain ⟨h1, _, h3, h4⟩ := planDrivingAux_driveSum sl el total fuel st t total 0 h0
  rw [h1, abs_le]
  have h5 := h4 hc
  constructor <;> linarith

/-- C3 witness: a 55-mile leg from a fresh ledger completes in 3 iterations
and conserves distance. -/
theorem distance_conservation_witness :
    |driveMilesSum (plan_driving_segment 3 (HOSState.init 0) 0 locA locB 55).segs -
      55| ≤ 1/2 :=
  distance_conservation 3 (HOSState.init 0) 0 locA locB 55 (by norm_num) (by decide)

/-- Accumulate maximal drive-mile runs delimited by fuel segments: each fuel
segment closes the open run (appending it to the output) and starts a new
one; drive segments add their distance to the open run; the final open run
is appended at the end. -/
def fuelRunsAux : List TripSegment → ℚ → List ℚ
  | [], acc => [acc]
  | s :: rest, acc =>
    if s.segment_type = "fuel" then acc :: fuelRunsAux rest 0
    else fuelRunsAux rest
      (acc + (if s.segment_type = "drive" then s.distance_miles else 0))

/-- The drive-mile runs between consecutive fuel segments of a segment list,
including the run before the first fuel segment and after the last. -/
def fuelRuns (l : List TripSegment) : List ℚ := fuelRunsAux l 0

/-- One loop iteration, followed by any tail: its segments contribute a
prefix of closed runs, all at most 1100 miles (in fact at most 1000), and
hand the tail an open run equal to the new miles_since_fuel, which satisfies
the loop invariant (nonnegative, at most 1000, and strictly below 1000
whenever more than 0.1 miles remain). -/
theorem planStep_runs (sl el : Loc) (tot : ℚ) (st : HOSState)
    (t mr msf : ℚ) (hmr : mr > 1/10) (h0 : 0 ≤ msf) (hlt : msf < 1000) :
    ∀ tail : List TripSegment,
      ∃ pref : List ℚ,
        (∀ r ∈ pref, r ≤ 1100) ∧
        fuelRunsAux ((planStep sl el tot st t mr msf).segs.map Prod.fst ++ tail)
            msf =
          pref ++ fuelRunsAux tail (planStep sl el tot st t mr msf).msf ∧
        0 ≤ (planStep sl el tot st t mr msf).msf ∧
        (planStep sl el tot st t mr msf).msf ≤ 1000 ∧
        ((planStep sl el tot st t mr msf).mr > 1/10 →
          (planStep sl el tot st t mr msf).msf < 1000) := by
  intro tail
  simp only [planStep]
  by_cases hlim : st.remaining_driving ≤ 0
  · rw [if_pos hlim]
    split_ifs <;>
      exact ⟨[], by simp, by simp [fuelRunsAux], h0, le_of_lt hlt, fun _ => hlt⟩
  · rw [if_neg hlim]
    have hLpos : 0 < st.remaining_driving := lt_of_not_ge hlim
    set L := st.remaining_driving with hL
    set mtf0 := 1000 - msf with hmtf0
    set mtf : ℚ := if mtf0 ≤ 0 then 1000 else mtf0 with hmtf
    set m0 : ℚ := min mr (L * 55) with hm0
    set nf : Bool := decide (m0 ≥ mtf ∧ mr > mtf) with hnf
    set m1 : ℚ := if nf then mtf else m0 with hm1
    have hmtfval : mtf = 1000 - msf := by
      rw [hmtf, hmtf0]
      rw [if_neg (by linarith : ¬ ((1000 : ℚ) - msf ≤ 0))]
    have hm1mr : m1 ≤ mr := by
      rw [hm1]
      split_ifs with hf
      · exact le_of_lt (of_decide_eq_true (hnf ▸ hf)).2
      · exact min_le_left _ _
    have hm1lemtf : m1 ≤ mtf := by
      rw [hm1]
      split_ifs with hf
      · exact le_refl _
      · have hP : ¬(m0 ≥ mtf ∧ mr > mtf) := by
          rw [hnf] at hf
          simpa using hf
        rw [not_and_or] at hP
        rcases hP with hP | hP
        · exact le_of_lt (lt_of_not_ge hP)
        · exact le_trans (min_le_left _ _) (le_of_not_lt hP)
    have hm0pos : 0 < m0 := lt_min (by linarith) (by positivity)
    have hmtfpos : 0 < mtf := by rw [hmtfval]; linarith
    have hm1pos : 0 < m1 := by
      rw [hm1]; split_ifs
      · exact hmtfpos
      · exact hm0pos
    have hmsfm1 : msf + m1 ≤ 1000 := by
      rw [hmtfval] at hm1lemtf
      linarith
    have htbnn : (0 : ℚ) ≤ st.remaining_before_break := le_max_left 0 _
    by_cases hcarve : (m1 / 55 > st.remaining_before_break ∧
        st.remaining_before_break > 0)
    · rw [if_pos hcarve]
      have hmbbm1 : st.remaining_before_break * 55 < m1 := by
        have h2 := hcarve.1
        rw [gt_iff_lt, lt_div_iff₀ (by norm_num : (0:ℚ) < 55)] at h2
        linarith
      by_cases hmbb : st.remaining_before_break * 55 > 1/10
      · rw [if_pos hmbb]
        dsimp only
        by_cases hcomb : (nf = true ∧
            |msf + st.remaining_before_break * 55 - 1000| < 100)
        · rw [if_pos hcomb]
          dsimp only
          refine ⟨[msf + st.remaining_before_break * 55], ?_,
            by simp [fuelRunsAux], le_refl 0, by norm_num, fun _ => by norm_num⟩
          intro r hr
          rcases List.mem_singleton.mp hr with rfl
          linarith
        · rw [if_neg hcomb]
          dsimp only
          exact ⟨[], by simp, by simp [fuelRunsAux], by linarith,
            by linarith, fun _ => by linarith⟩
      · rw [if_neg hmbb]
        dsimp only
        by_cases hcomb : (nf = true ∧ |msf - 1000| < 100)
        · rw [if_pos hcomb]
          dsimp only
          refine ⟨[msf], ?_, by simp [fuelRunsAux], le_refl 0, by norm_num,
            fun _ => by norm_num⟩
          intro r hr
          rcases List.mem_singleton.mp hr with rfl
          linarith
        · rw [if_neg hcomb]
          dsimp only
          exact ⟨[], by simp, by simp [fuelRunsAux], h0, le_of_lt hlt,
            fun _ => hlt⟩
    · rw [if_neg hcarve]
      by_cases hfuel : (nf = true ∧ mr - m1 > 1/10)
      · rw [if_pos hfuel]
        dsimp only
        refine ⟨[msf + m1], ?_, by simp [fuelRunsAux], le_refl 0, by norm_num,
          fun _ => by norm_num⟩
        intro r hr
        rcases List.mem_singleton.mp hr with rfl
        linarith
      · rw [if_neg hfuel]
        dsimp only
        refine ⟨[], by simp, by simp [fuelRunsAux], by linarith, by linarith, ?_⟩
        intro hmore
        rw [not_and_or] at hfuel
        rcases hfuel with hfb | hfb
        · have hP : ¬(m0 ≥ mtf ∧ mr > mtf) := by
            rw [hnf] at hfb
            simpa using hfb
          have hm1m0 : m1 = m0 := by rw [hm1, if_neg hfb]
          rw [not_and_or] at hP
          rcases hP with hP | hP
          · have h2 : m0 < mtf := lt_of_not_ge hP
            rw [hmtfval] at h2
            rw [hm1m0]
            linarith
          · have h2 : mr ≤ mtf := le_of_not_lt hP
            have h3 : m1 < mr := by
              simp only [gt_iff_lt] at hmore
              linarith
            rw [hmtfval] at h2
            linarith
        · exact absurd hmore hfb

/-- Along the fueled loop, every fuel run (seeded with the current
miles_since_fuel) stays at most 1100 miles, under the loop invariant. -/
theorem planDrivingAux_runs (sl el : Loc) (tot : ℚ) :
    ∀ (fuel : ℕ) (st : HOSState) (t mr msf : ℚ),
      0 ≤ msf → msf ≤ 1000 → (mr > 1/10 → msf < 1000) →
      ∀ r ∈ fuelRunsAux
          ((planDrivingAux sl el tot fuel st t mr msf).segs.map Prod.fst) msf,
        r ≤ 1100 := by
  intro fuel
  induction fuel with
  | zero =>
    intro st t mr msf h0 h1000 _ r hr
    simp only [planDrivingAux, List.map_nil, fuelRunsAux,
      List.mem_singleton] at hr
    subst hr
    linarith
  | succ n ih =>
    intro st t mr msf h0 h1000 hstrict r hr
    simp only [planDrivingAux] at hr
    by_cases hgt : mr > 1/10
    · rw [if_pos hgt] at hr
      dsimp only at hr
      obtain ⟨pref, hpref, heq, hi0, hi1000, histrict⟩ :=
        planStep_runs sl el tot st t mr msf hgt h0 (hstrict hgt)
          ((planDrivingAux sl el tot n (planStep sl el tot st t mr msf).state
            (planStep sl el tot st t mr msf).time
            (planStep sl el tot st t mr msf).mr
            (planStep sl el tot st t mr msf).msf).segs.map Prod.fst)
      rw [List.map_append, heq] at hr
      rcases List.mem_append.mp hr with hr1 | hr1
      · exact hpref r hr1
      · exact ih _ _ _ _ hi0 hi1000 histrict r hr1
    · rw [if_neg hgt] at hr
      simp only [List.map_nil, fuelRunsAux, List.mem_singleton] at hr
      subst hr
      linarith

/-- C4 amended: within the segments emitted for a single leg (one
_plan_driving_segment call, which starts its private miles_since_fuel at
zero), between any two consecutive fuel segments the intervening drive
distances sum to at most 1100 miles (in fact at most 1000), including the
runs before the first and after the last fuel segment.  Across legs the
claim fails, because miles_since_fuel is reset per leg: see the
counterexample. -/
theorem fuel_cadence_within_leg (fuel : ℕ) (st : HOSState) (t : ℚ)
    (sl el : Loc) (total : ℚ) :
    ∀ r ∈ fuelRuns
        ((plan_driving_segment fuel st t sl el total).segs.map Prod.fst),
      r ≤ 1100 := by
  intro r hr
  unfold plan_driving_segment at hr
  exact planDrivingAux_runs sl el total fuel st t total 0
    (le_refl 0) (by norm_num) (fun _ => by norm_num) r hr

/-- A trip whose first leg (200 mi) emits no fuel stop and whose second leg
reaches its first fuel stop after 1000 further miles. -/
def cex4Legs : List RouteLeg :=
  [⟨"drive_to_pickup", locA, locB, 200, 4⟩,
   ⟨"drive_to_dropoff", locB, locC, 1001, 19⟩]

/-- C4 counterexample: across legs the fuel cadence fails; in this trip the
drive run before the first fuel segment totals 1200 miles, exceeding 1100,
because miles_since_fuel restarts at zero on the second leg while no fuel
stop was emitted on the first. -/
theorem fuel_run_exceeds_1100_across_legs :
    ¬ ∀ r ∈ fuelRuns ((tripPairs 30 cex4Legs 0 0).map Prod.fst), r ≤ 1100 := by
  decide

/-- C4 witness: the amended per-leg theorem evaluated on a 55-mile leg. -/
theorem fuel_cadence_within_leg_witness :
    (55 : ℚ) ∈ fuelRuns
      ((plan_driving_segment 3 (HOSState.init 0) 0 locA locB 55).segs.map
        Prod.fst) ∧
    (55 : ℚ) ≤ 1100 :=
  ⟨by decide, fuel_cadence_within_leg 3 (HOSState.init 0) 0 locA locB 55 55
    (by decide)⟩

/-- From a state that can drive (positive remaining allowance) with a fresh
break counter, one loop iteration strictly decreases miles_remaining. -/
theorem planStep_decreases (sl el : Loc) (tot : ℚ) (st : HOSState)
    (t mr msf : ℚ) (hmr : mr > 1/10) (hpos : 0 < st.remaining_driving)
    (hhsb : st.hours_since_break = 0) :
    (planStep sl el tot st t mr msf).mr < mr := by
  simp only [planStep]
  rw [if_neg (not_le.mpr hpos)]
  have hLe := remaining_driving_le st hpos
  have hL8 : st.remaining_driving ≤ 8 := by
    have h := hLe.2.2.1
    rw [hhsb] at h
    linarith
  set L := st.remaining_driving with hL
  set mtf0 := 1000 - msf with hmtf0
  set mtf : ℚ := if mtf0 ≤ 0 then 1000 else mtf0 with hmtf
  set m0 : ℚ := min mr (L * 55) with hm0
  set nf : Bool := decide (m0 ≥ mtf ∧ mr > mtf) with hnf
  set m1 : ℚ := if nf then mtf else m0 with hm1
  have hm1le : m1 ≤ L * 55 := by
    rw [hm1]
    split_ifs with hf
    · exact le_trans (of_decide_eq_true (hnf ▸ hf)).1 (min_le_right _ _)
    · exact min_le_right _ _
  have hmtfpos : 0 < mtf := by
    rw [hmtf]
    split_ifs with h
    · norm_num
    · exact not_le.mp h
  have hm0pos : 0 < m0 := lt_min (by linarith) (by positivity)
  have hm1pos : 0 < m1 := by
    rw [hm1]; split_ifs
    · exact hmtfpos
    · exact hm0pos
  have hhle : m1 / 55 ≤ L := by
    rw [div_le_iff₀ (by norm_num : (0:ℚ) < 55)]
    linarith
  have hrb8 : st.remaining_before_break = 8 := by
    rw [HOSState.remaining_before_break, hhsb]
    norm_num
  have hcarve_false : ¬(m1 / 55 > st.remaining_before_break ∧
      st.remaining_before_break > 0) := by
    rintro ⟨h1, _⟩
    rw [hrb8] at h1
    have : m1 / 55 ≤ 8 := le_trans hhle hL8
    linarith
  rw [if_neg hcarve_false]
  by_cases hfuel : (nf = true ∧ mr - m1 > 1/10)
  · rw [if_pos hfuel]
    dsimp only
    linarith
  · rw [if_neg hfuel]
    dsimp only
    linarith

/-- One loop iteration either emits a drive segment of positive distance and
strictly decreases miles_remaining, or performs an interruption:
miles_remaining is unchanged and the new ledger has strictly positive
remaining driving allowance and a fresh break counter. -/
theorem planStep_cases (sl el : Loc) (tot : ℚ) (st : HOSState)
    (t mr msf : ℚ) (hmr : mr > 1/10) :
    ((∃ p ∈ (planStep sl el tot st t mr msf).segs,
        p.1.segment_type = "drive" ∧ 0 < p.1.distance_miles) ∧
      (planStep sl el tot st t mr msf).mr < mr) ∨
    ((planStep sl el tot st t mr msf).mr = mr ∧
      0 < (planStep sl el tot st t mr msf).state.remaining_driving ∧
      (planStep sl el tot st t mr msf).state.hours_since_break = 0) := by
  simp only [planStep]
  by_cases hlim : st.remaining_driving ≤ 0
  · rw [if_pos hlim]
    by_cases hcr : st.needs_cycle_reset
    · rw [if_pos hcr]
      refine Or.inr ⟨rfl, ?_, rfl⟩
      norm_num [HOSState.remaining_driving, HOSState.take_rest]
    · rw [if_neg hcr]
      have hch : st.cycle_hours < 70 := not_le.mp hcr
      by_cases hb : st.needs_break ∧ ¬ st.needs_rest
      · rw [if_pos hb]
        have hnr := hb.2
        rw [HOSState.needs_rest, not_or] at hnr
        have hdh : st.driving_hours < 11 := not_le.mp hnr.1
        have hwh : st.window_hours < 14 := not_le.mp hnr.2
        refine Or.inr ⟨rfl, ?_, rfl⟩
        show (0:ℚ) < max 0 _
        refine lt_max_iff.mpr (Or.inr ?_)
        simp only [HOSState.take_break]
        exact lt_min (by linarith) (lt_min (by linarith)
          (lt_min (by norm_num) (by linarith)))
      · rw [if_neg hb]
        refine Or.inr ⟨rfl, ?_, rfl⟩
        show (0:ℚ) < max 0 _
        refine lt_max_iff.mpr (Or.inr ?_)
        simp only [HOSState.take_rest]
        exact lt_min (by norm_num) (lt_min (by norm_num)
          (lt_min (by norm_num) (by linarith)))
  · rw [if_neg hlim]
    have hLpos : 0 < st.remaining_driving := lt_of_not_ge hlim
    have hLe := remaining_driving_le st hLpos
    set L := st.remaining_driving with hL
    set mtf0 := 1000 - msf with hmtf0
    set mtf : ℚ := if mtf0 ≤ 0 then 1000 else mtf0 with hmtf
    set m0 : ℚ := min mr (L * 55) with hm0
    set nf : Bool := decide (m0 ≥ mtf ∧ mr > mtf) with hnf
    set m1 : ℚ := if nf then mtf else m0 with hm1
    have hmtfpos : 0 < mtf := by
      rw [hmtf]
      split_ifs with h
      · norm_num
      · exact not_le.mp h
    have hm0pos : 0 < m0 := lt_min (by linarith) (by positivity)
    have hm1pos : 0 < m1 := by
      rw [hm1]; split_ifs
      · exact hmtfpos
      · exact hm0pos
    by_cases hcarve : (m1 / 55 > st.remaining_before_break ∧
        st.remaining_before_break > 0)
    · rw [if_pos hcarve]
      by_cases hmbb : st.remaining_before_break * 55 > 1/10
      · rw [if_pos hmbb]
        dsimp only
        by_cases hcomb : (nf = true ∧
            |msf + st.remaining_before_break * 55 - 1000| < 100)
        · rw [if_pos hcomb]
          dsimp only
          refine Or.inl ⟨⟨_, List.mem_append_left _ (List.mem_singleton_self _),
            rfl, by linarith⟩, by linarith⟩
        · rw [if_neg hcomb]
          dsimp only
          refine Or.inl ⟨⟨_, List.mem_append_left _ (List.mem_singleton_self _),
            rfl, by linarith⟩, by linarith⟩
      · rw [if_neg hmbb]
        dsimp only
        have hremtb : 0 < (st.take_break).remaining_driving := by
          show (0:ℚ) < max 0 _
          refine lt_max_iff.mpr (Or.inr ?_)
          simp only [HOSState.take_break]
          exact lt_min (by linarith [hLe.1]) (lt_min (by linarith [hLe.2.1])
            (lt_min (by norm_num) (by linarith [hLe.2.2.2])))
        by_cases hcomb : (nf = true ∧ |msf - 1000| < 100)
        · rw [if_pos hcomb]
          dsimp only
          exact Or.inr ⟨rfl, hremtb, rfl⟩
        · rw [if_neg hcomb]
          dsimp only
          exact Or.inr ⟨rfl, hremtb, rfl⟩
    · rw [if_neg hcarve]
      by_cases hfuel : (nf = true ∧ mr - m1 > 1/10)
      · rw [if_pos hfuel]
        dsimp only
        refine Or.inl ⟨⟨_, List.mem_cons_self _ _, rfl, hm1pos⟩, by linarith⟩
      · rw [if_neg hfuel]
        dsimp only
        refine Or.inl ⟨⟨_, List.mem_singleton_self _, rfl, hm1pos⟩, by linarith⟩

/-- C10: each iteration of the planning loop (entered when more than 0.1
miles remain) either emits a drive segment of positive distance, strictly
decreasing miles_remaining, or performs an interruption (break, rest or
cycle restart) after which remaining_driving() is strictly positive and the
very next iteration strictly decreases miles_remaining — so interruption
runs are bounded and miles_remaining strictly decreases across them.  This
holds for every ledger state, in particular for every starting state with
cycle_hours below 70, and for every leg. -/
theorem planning_loop_progress (sl el : Loc) (tot : ℚ) (st : HOSState)
    (t mr msf : ℚ) (hmr : mr > 1/10) :
    ((∃ p ∈ (planStep sl el tot st t mr msf).segs,
        p.1.segment_type = "drive" ∧ 0 < p.1.distance_miles) ∧
      (planStep sl el tot st t mr msf).mr < mr) ∨
    ((planStep sl el tot st t mr msf).mr = mr ∧
      0 < (planStep sl el tot st t mr msf).state.remaining_driving ∧
      (planStep sl el tot (planStep sl el tot st t mr msf).state
          (planStep sl el tot st t mr msf).time
          (planStep sl el tot st t mr msf).mr
          (planStep sl el tot st t mr msf).msf).mr < mr) := by
  rcases planStep_cases sl el tot st t mr msf hmr with ⟨h1, h2⟩ | ⟨heq, hpos, hhsb⟩
  · exact Or.inl ⟨h1, h2⟩
  · refine Or.inr ⟨heq, hpos, ?_⟩
    have hd := planStep_decreases sl el tot
      (planStep sl el tot st t mr msf).state
      (planStep sl el tot st t mr msf).time
      (planStep sl el tot st t mr msf).mr
      (planStep sl el tot st t mr msf).msf
      (by rw [heq]; exact hmr) hpos hhsb
    exact lt_of_lt_of_le hd (le_of_eq heq)

/-- C10 witness: the progress theorem evaluated on a 55-mile leg from a
fresh ledger. -/
theorem planning_loop_progress_witness :
    ((∃ p ∈ (planStep locA locB 55 (HOSState.init 0) 0 55 0).segs,
        p.1.segment_type = "drive" ∧ 0 < p.1.distance_miles) ∧
      (planStep locA locB 55 (HOSState.init 0) 0 55 0).mr < 55) ∨
    ((planStep locA locB 55 (HOSState.init 0) 0 55 0).mr = 55 ∧
      0 < (planStep locA locB 55 (HOSState.init 0) 0 55 0).state.remaining_driving ∧
      (planStep locA locB 55 (planStep locA locB 55 (HOSState.init 0) 0 55 0).state
          (planStep locA locB 55 (HOSState.init 0) 0 55 0).time
          (planStep locA locB 55 (HOSState.init 0) 0 55 0).mr
          (planStep locA locB 55 (HOSState.init 0) 0 55 0).msf).mr < 55) :=
  planning_loop_progress locA locB 55 (HOSState.init 0) 0 55 0 (by norm_num)
